import Mathlib

set_option maxRecDepth 100000

/-!
Verification of the Pivota catalog-intelligence core against its specification.

The development shallowly embeds the two subsystems the claims are about:

* the harvest orchestrator `SourceHarvester.process`
  (`src/ingredient-harvester/app/harvester/source_harvester.py`) together with
  the candidate feature score `_feature_score`
  (`src/ingredient-harvester/app/harvester/extract.py`), and
* the ingredient parser `ParserEngine.parse` with its helper functions
  (`src/services/ingredient_parser.py`).

Text is modelled as `List Char`.  Python's `str.lower`/`str.upper` are modelled
on the ASCII letter range (all dictionary keys, phrase tables and markers in
the source are ASCII or CJK, and CJK characters are case-invariant), Python
whitespace as the six ASCII whitespace characters, and `re` word characters as
ASCII alphanumerics, underscore and the CJK unified-ideograph range.  Python
floats are modelled as rationals.  The regular expressions of the source are
hand-compiled to character-level scanners with the same match semantics
(leftmost match, alternatives in written order, greedy bounded repetition);
`$` is modelled as end of string (every pattern using `$` ends in `\s*$`, so a
trailing newline yields the same substitution result either way).
-/

abbrev Str := List Char

/-- Convert a string literal to the character-list representation. -/
def str (s : String) : Str := s.data

/-- Python whitespace test (ASCII range of `str.isspace` / regex `\s`). -/
def isSpace (c : Char) : Bool :=
  c = ' ' || c = '\t' || c = '\n' || c = '\r' || c = '\x0b' || c = '\x0c'

/-- ASCII lowercase mapping on code points. -/
def lowN (n : Nat) : Nat := if 65 ≤ n ∧ n ≤ 90 then n + 32 else n

/-- ASCII uppercase mapping on code points. -/
def upN (n : Nat) : Nat := if 97 ≤ n ∧ n ≤ 122 then n - 32 else n

/-- Python `str.lower` on one character (ASCII range). -/
def pyLowerChar (c : Char) : Char :=
  if 65 ≤ c.toNat ∧ c.toNat ≤ 90 then
    Char.ofNat (c.toNat + 32)
  else c

/-- Python `str.upper` on one character (ASCII range). -/
def pyUpperChar (c : Char) : Char :=
  if 97 ≤ c.toNat ∧ c.toNat ≤ 122 then
    Char.ofNat (c.toNat - 32)
  else c

/-- Python `str.lower` (ASCII range). -/
def pyLower (s : Str) : Str := s.map pyLowerChar

/-- Python `str.upper` (ASCII range). -/
def pyUpper (s : Str) : Str := s.map pyUpperChar

/-- Python `str.strip()` (strip whitespace from both ends). -/
def pyStrip (s : Str) : Str :=
  ((s.dropWhile isSpace).reverse.dropWhile isSpace).reverse

/-- Python `str.strip(chars)` (strip the given characters from both ends). -/
def pyStripChars (cs : Str) (s : Str) : Str :=
  ((s.dropWhile (cs.contains ·)).reverse.dropWhile (cs.contains ·)).reverse

/-- List-prefix test (`needle` is a prefix of `hay`). -/
def startsWithL : Str → Str → Bool
  | _, [] => true
  | [], _ :: _ => false
  | c :: cs, d :: ds => c = d && startsWithL cs ds

/-- Python's substring containment `needle in hay`. -/
def containsSub : Str → Str → Bool
  | [], needle => needle.isEmpty
  | hay@(_ :: t), needle => startsWithL hay needle || containsSub t needle

/- ## Harvest orchestrator (`source_harvester.py`) -/

/-- `build_query(market, brand, product_name)` from `source_harvester.py`. -/
def build_query (market brand product_name : Str) : Str :=
  let m := pyUpper (pyStrip market)
  let b := pyStrip brand
  let p := pyStrip product_name
  let base := pyStrip (b ++ [' '] ++ p)
  if m = str "CN" ∨ m = str "CHN" ∨ m = str "CHINA" then
    pyStrip (base ++ str " 全成分")
  else
    pyStrip (base ++ str " ingredients list INCI")

/-- `classify_source_type(url)` from `source_harvester.py`. -/
def classify_source_type (url : Str) : Str :=
  let u := pyLower url
  if [str "sephora.", str "ulta.", str "amazon.", str "lookfantastic.",
      str "cultbeauty.", str "douglas."].any (fun h => containsSub u h) then
    str "Retailer"
  else if [str "wikipedia.org", str "incidecoder.com", str "cosdna.com",
      str "skincarisma.com"].any (fun h => containsSub u h) then
    str "ThirdParty"
  else
    str "Official"

/-- The data of a successful `extract_ingredients` call, as consumed by the
orchestrator: `extracted.text`, `float(extracted.score)`,
`bool(extracted.verified_in_dom)`, the resolved `fetched.url`, and
`extracted.debug_hint`. -/
structure Extracted where
  text : Str
  score : ℚ
  verified : Bool
  url : Str
  hint : Str
deriving DecidableEq

/-- Result of processing one URL inside the orchestrator's `try` block.  The
block performs only external work (fetch + extract) before the pure branch on
`verified`/`score`: an exception anywhere in it (`exc`), an HTTP status ≥ 400
(`httpError`), extraction returning nothing (`noExtract`), or an extraction
(`ok`). -/
inductive AttemptResult where
  | exc (msg : Str)
  | httpError (code : Nat)
  | noExtract
  | ok (e : Extracted)
deriving DecidableEq

/-- One entry of `debug["attempts"]`: either an error record
`{url, error}` or a scored record `{url, score, verified, hint}`. -/
inductive AttemptLog where
  | err (url : Str) (error : Str)
  | scored (url : Str) (score : ℚ) (verified : Bool) (hint : Str)
deriving DecidableEq

/-- `HarvestOutcome` from `source_harvester.py`, with the `debug` dict
flattened into its keys (`query`, `urls`, `attempts`, `picked`, `hint`,
`verified`). -/
structure HarvestOutcome where
  status : Str
  confidence : ℚ
  raw_ingredient_text : Option Str
  source_ref : Option Str
  source_type : Option Str
  query : Str
  urls : List Str
  picked : Option Str
  hint : Option Str
  verified_flag : Option Bool
  attempts : List AttemptLog
deriving DecidableEq

/-- The `debug["attempts"]` entry recorded for one URL's attempt. -/
def logEntry (url : Str) (r : AttemptResult) : AttemptLog :=
  match r with
  | .exc m => .err url (m.take 200)
  | .httpError c => .err url (str "http_" ++ (toString c).data)
  | .noExtract => .err url (str "no_extract")
  | .ok e => .scored e.url e.score e.verified e.hint

/-- The attempt log produced by a run of the URL loop. -/
def logsOf (l : List (Str × AttemptResult)) : List AttemptLog :=
  l.map (fun p => logEntry p.1 p.2)

/-- The early-return outcome for a verified, high-confidence extraction. -/
def mkTrusted (query : Str) (urls : List Str) (e : Extracted)
    (logs : List AttemptLog) : HarvestOutcome :=
  { status := str "OK", confidence := min 1 e.score,
    raw_ingredient_text := some e.text, source_ref := some e.url,
    source_type := some (classify_source_type e.url),
    query := query, urls := urls, picked := some e.url, hint := some e.hint,
    verified_flag := none, attempts := logs }

/-- The end-of-loop outcome built from the remembered `best_pending`. -/
def mkPending (query : Str) (urls : List Str) (b : Extracted)
    (logs : List AttemptLog) : HarvestOutcome :=
  { status := str "PENDING", confidence := max 0.3 (min 0.8 b.score),
    raw_ingredient_text := some b.text, source_ref := some b.url,
    source_type := some (classify_source_type b.url),
    query := query, urls := urls, picked := some b.url, hint := some b.hint,
    verified_flag := some b.verified, attempts := logs }

/-- The outcome when no URL produced an extraction. -/
def mkNotFound (query : Str) (urls : List Str)
    (logs : List AttemptLog) : HarvestOutcome :=
  { status := str "NEEDS_SOURCE", confidence := 0,
    raw_ingredient_text := none, source_ref := none, source_type := none,
    query := query, urls := urls, picked := none, hint := none,
    verified_flag := none, attempts := logs }

/-- `rank = confidence + (0.05 if verified else 0.0)`. -/
def rankOf (e : Extracted) : ℚ := e.score + (if e.verified then 0.05 else 0)

/-- The URL loop of `SourceHarvester.process`, with the per-URL external work
already summarised in the list of `AttemptResult`s, the `best_pending` /
`best_rank` accumulator pair, and the attempt log accumulated so far. -/
def processGo (query : Str) (urls : List Str) :
    List (Str × AttemptResult) → Option Extracted → ℚ → List AttemptLog →
    HarvestOutcome
  | [], bp, _, logs =>
    match bp with
    | some b => mkPending query urls b logs
    | none => mkNotFound query urls logs
  | (url, r) :: rest, bp, bestRank, logs =>
    let logs' := logs ++ [logEntry url r]
    match r with
    | .ok e =>
      if e.verified ∧ (0.8 : ℚ) ≤ e.score then
        mkTrusted query urls e logs'
      else
        let rank := rankOf e
        if bestRank < rank then
          processGo query urls rest (some e) rank logs'
        else
          processGo query urls rest bp bestRank logs'
    | _ => processGo query urls rest bp bestRank logs'

/-- `SourceHarvester.process(market=…, brand=…, product_name=…)`.
`search_urls` stands for `self.search_engine.search(query, top_k=3)` and
`attempt` for the external fetch/extract behaviour at each URL. -/
def process (market brand product_name : Str) (search_urls : List Str)
    (attempt : Str → AttemptResult) : HarvestOutcome :=
  let query := build_query market brand product_name
  processGo query search_urls
    ((search_urls.take 3).map (fun u => (u, attempt u))) none (-1) []

/-- Status/confidence/text invariant, established for every reachable outcome
of the URL loop. -/
def OutcomeInv (o : HarvestOutcome) : Prop :=
  (o.status = str "OK" ∨ o.status = str "PENDING" ∨
      o.status = str "NEEDS_SOURCE") ∧
  (o.status = str "OK" →
      o.raw_ingredient_text.isSome ∧ (0.8 : ℚ) ≤ o.confidence) ∧
  (o.status = str "NEEDS_SOURCE" →
      o.raw_ingredient_text = none ∧ o.confidence = 0) ∧
  (o.status = str "PENDING" →
      o.raw_ingredient_text.isSome ∧ (0.3 : ℚ) ≤ o.confidence ∧
        o.confidence ≤ 0.8)

lemma status_ok_ne_pending : str "OK" ≠ str "PENDING" := by decide

lemma status_ok_ne_ns : str "OK" ≠ str "NEEDS_SOURCE" := by decide

lemma status_pending_ne_ns : str "PENDING" ≠ str "NEEDS_SOURCE" := by decide

lemma outcomeInv_mkTrusted (q : Str) (us : List Str) (e : Extracted)
    (logs : List AttemptLog) (hs : (0.8 : ℚ) ≤ e.score) :
    OutcomeInv (mkTrusted q us e logs) := by
  refine ⟨Or.inl rfl, fun _ => ⟨rfl, le_min (by norm_num) hs⟩, ?_, ?_⟩
  · intro h; exact absurd h status_ok_ne_ns
  · intro h; exact absurd h status_ok_ne_pending

lemma outcomeInv_mkPending (q : Str) (us : List Str) (b : Extracted)
    (logs : List AttemptLog) : OutcomeInv (mkPending q us b logs) := by
  refine ⟨Or.inr (Or.inl rfl), ?_, ?_, ?_⟩
  · intro h; exact absurd h.symm status_ok_ne_pending
  · intro h; exact absurd h status_pending_ne_ns
  · intro _
    exact ⟨rfl, le_max_left _ _, max_le (by norm_num) (min_le_left _ _)⟩

lemma outcomeInv_mkNotFound (q : Str) (us : List Str)
    (logs : List AttemptLog) : OutcomeInv (mkNotFound q us logs) := by
  refine ⟨Or.inr (Or.inr rfl), ?_, fun _ => ⟨rfl, rfl⟩, ?_⟩
  · intro h; exact absurd h.symm status_ok_ne_ns
  · intro h; exact absurd h.symm status_pending_ne_ns

lemma outcomeInv_processGo (q : Str) (us : List Str) :
    ∀ (l : List (Str × AttemptResult)) (bp : Option Extracted) (r : ℚ)
      (logs : List AttemptLog), OutcomeInv (processGo q us l bp r logs) := by
  intro l
  induction l with
  | nil =>
    intro bp r logs
    cases bp with
    | none => exact outcomeInv_mkNotFound q us logs
    | some b => exact outcomeInv_mkPending q us b logs
  | cons hd tl ih =>
    intro bp r logs
    obtain ⟨url, ar⟩ := hd
    cases ar with
    | exc m => exact ih _ _ _
    | httpError c => exact ih _ _ _
    | noExtract => exact ih _ _ _
    | ok e =>
      show OutcomeInv _
      simp only [processGo]
      split
      · next h => exact outcomeInv_mkTrusted q us e _ h.2
      · split
        · exact ih _ _ _
        · exact ih _ _ _

/-- Claim C1: every `HarvestOutcome` returned by `SourceHarvester.process`
has one of the statuses `OK` (TRUSTED), `PENDING` (TENTATIVE),
`NEEDS_SOURCE` (NOT_FOUND); `OK` outcomes carry a raw ingredient text and
confidence ≥ 0.8, `NEEDS_SOURCE` outcomes carry no text and confidence 0, and
`PENDING` outcomes carry a text and confidence in [0.3, 0.8]. -/
theorem harvest_outcome_status_invariant (market brand product_name : Str)
    (search_urls : List Str) (attempt : Str → AttemptResult) :
    let o := process market brand product_name search_urls attempt
    (o.status = str "OK" ∨ o.status = str "PENDING" ∨
        o.status = str "NEEDS_SOURCE") ∧
    (o.status = str "OK" →
        o.raw_ingredient_text.isSome ∧ (0.8 : ℚ) ≤ o.confidence) ∧
    (o.status = str "NEEDS_SOURCE" →
        o.raw_ingredient_text = none ∧ o.confidence = 0) ∧
    (o.status = str "PENDING" →
        o.raw_ingredient_text.isSome ∧ (0.3 : ℚ) ≤ o.confidence ∧
          o.confidence ≤ 0.8) :=
  outcomeInv_processGo _ _ _ _ _ _

/-- Witness for C1: a harvest with no search results, evaluated concretely. -/
theorem harvest_outcome_status_invariant_witness :
    (process (str "US") (str "B") (str "P") [] (fun _ => .noExtract)
        ).raw_ingredient_text = none ∧
    (process (str "US") (str "B") (str "P") [] (fun _ => .noExtract)
        ).confidence = 0 :=
  (harvest_outcome_status_invariant (str "US") (str "B") (str "P") []
    (fun _ => .noExtract)).2.2.1 (by decide)

/- ## C4/C9: functional characterisation of the URL loop -/

/-- Whether one attempt result takes the trusted early-return branch. -/
def trustedHit : AttemptResult → Bool
  | .ok e => e.verified && decide ((0.8 : ℚ) ≤ e.score)
  | _ => false

/-- The successful extractions of an attempt list, in order. -/
def extractedOf (l : List (Str × AttemptResult)) : List Extracted :=
  l.filterMap (fun p => match p.2 with | .ok e => some e | _ => none)

/-- The loop's best-tentative accumulator fold over further extractions. -/
def codeBest (b : Extracted) (es : List Extracted) : Extracted :=
  es.foldl (fun acc e => if rankOf acc < rankOf e then e else acc) b

lemma trustedHit_false_iff (e : Extracted) :
    trustedHit (.ok e) = false ↔ ¬(e.verified ∧ (0.8 : ℚ) ≤ e.score) := by
  simp [trustedHit, not_and]

lemma rankOf_le_codeBest (es : List Extracted) :
    ∀ b : Extracted, rankOf b ≤ rankOf (codeBest b es) := by
  induction es with
  | nil => intro b; exact le_refl _
  | cons e rest ih =>
    intro b
    show rankOf b ≤ rankOf (codeBest (if rankOf b < rankOf e then e else b) rest)
    by_cases h : rankOf b < rankOf e
    · simpa [h] using le_trans h.le (ih e)
    · simpa [h] using ih b

lemma codeBest_decomp (es : List Extracted) :
    ∀ b : Extracted, ∃ l₁ l₂, b :: es = l₁ ++ codeBest b es :: l₂ ∧
      (∀ e ∈ l₁, rankOf e < rankOf (codeBest b es)) ∧
      (∀ e ∈ l₂, rankOf e ≤ rankOf (codeBest b es)) := by
  induction es with
  | nil =>
    intro b
    exact ⟨[], [], by simp [codeBest], by simp, by simp⟩
  | cons e rest ih =>
    intro b
    have hstep : codeBest b (e :: rest)
        = codeBest (if rankOf b < rankOf e then e else b) rest := rfl
    by_cases h : rankOf b < rankOf e
    · rw [if_pos h] at hstep
      obtain ⟨m₁, m₂, hdec, hlt, hle⟩ := ih e
      refine ⟨b :: m₁, m₂, ?_, ?_, ?_⟩
      · rw [hstep, List.cons_append, ← hdec]
      · rw [hstep]
        intro x hx
        rcases List.mem_cons.mp hx with rfl | hx
        · exact lt_of_lt_of_le h (rankOf_le_codeBest rest e)
        · exact hlt x hx
      · rw [hstep]; exact hle
    · rw [if_neg h] at hstep
      obtain ⟨m₁, m₂, hdec, hlt, hle⟩ := ih b
      cases m₁ with
      | nil =>
        rw [List.nil_append] at hdec
        injection hdec with hb hrest
        refine ⟨[], e :: rest, ?_, by simp, ?_⟩
        · rw [hstep, ← hb, List.nil_append]
        · rw [hstep, ← hb]
          intro x hx
          rcases List.mem_cons.mp hx with rfl | hx
          · exact le_of_not_lt h
          · have := hle x (hrest ▸ hx)
            rwa [← hb] at this
      | cons y m₁' =>
        rw [List.cons_append] at hdec
        injection hdec with hy hrest
        have hbc : rankOf b < rankOf (codeBest b rest) := by
          have := hlt y (List.mem_cons_self y m₁')
          rwa [← hy] at this
        refine ⟨b :: e :: m₁', m₂, ?_, ?_, ?_⟩
        · rw [hstep, List.cons_append, List.cons_append, ← hrest]
        · rw [hstep]
          intro x hx
          rcases List.mem_cons.mp hx with rfl | hx
          · exact hbc
          rcases List.mem_cons.mp hx with rfl | hx
          · exact lt_of_le_of_lt (le_of_not_lt h) hbc
          · exact hlt x (List.mem_cons_of_mem _ hx)
        · rw [hstep]; exact hle

lemma processGo_append_nontrusted (q : Str) (us : List Str)
    (l₁ : List (Str × AttemptResult)) :
    (∀ p ∈ l₁, trustedHit p.2 = false) →
    ∀ (bp : Option Extracted) (rank : ℚ),
      ∃ bp' rank', ∀ (rest : List (Str × AttemptResult)) (logs : List AttemptLog),
        processGo q us (l₁ ++ rest) bp rank logs =
          processGo q us rest bp' rank' (logs ++ logsOf l₁) := by
  induction l₁ with
  | nil => intro _ bp rank; exact ⟨bp, rank, fun rest logs => by simp [logsOf]⟩
  | cons hd tl ih =>
    intro h bp rank
    obtain ⟨url, r⟩ := hd
    have htl : ∀ p ∈ tl, trustedHit p.2 = false := fun p hp =>
      h p (List.mem_cons_of_mem _ hp)
    cases r with
    | exc m =>
      obtain ⟨bp', rank', hres⟩ := ih htl bp rank
      refine ⟨bp', rank', fun rest logs => ?_⟩
      have hlogs : logs ++ logsOf ((url, AttemptResult.exc m) :: tl)
          = (logs ++ [logEntry url (.exc m)]) ++ logsOf tl := by simp [logsOf]
      have hstep : processGo q us (((url, AttemptResult.exc m) :: tl) ++ rest) bp rank logs
          = processGo q us (tl ++ rest) bp rank (logs ++ [logEntry url (.exc m)]) := rfl
      rw [hstep, hres rest _, ← hlogs]
    | httpError c =>
      obtain ⟨bp', rank', hres⟩ := ih htl bp rank
      refine ⟨bp', rank', fun rest logs => ?_⟩
      have hlogs : logs ++ logsOf ((url, AttemptResult.httpError c) :: tl)
          = (logs ++ [logEntry url (.httpError c)]) ++ logsOf tl := by simp [logsOf]
      have hstep : processGo q us (((url, AttemptResult.httpError c) :: tl) ++ rest) bp rank logs
          = processGo q us (tl ++ rest) bp rank (logs ++ [logEntry url (.httpError c)]) := rfl
      rw [hstep, hres rest _, ← hlogs]
    | noExtract =>
      obtain ⟨bp', rank', hres⟩ := ih htl bp rank
      refine ⟨bp', rank', fun rest logs => ?_⟩
      have hlogs : logs ++ logsOf ((url, AttemptResult.noExtract) :: tl)
          = (logs ++ [logEntry url (.noExtract)]) ++ logsOf tl := by simp [logsOf]
      have hstep : processGo q us (((url, AttemptResult.noExtract) :: tl) ++ rest) bp rank logs
          = processGo q us (tl ++ rest) bp rank (logs ++ [logEntry url (.noExtract)]) := rfl
      rw [hstep, hres rest _, ← hlogs]
    | ok e =>
      have hnt : ¬(e.verified ∧ (0.8 : ℚ) ≤ e.score) :=
        (trustedHit_false_iff e).mp (h (url, .ok e) (List.mem_cons_self _ _))
      have hlogs : ∀ logs : List AttemptLog, logs ++ logsOf ((url, AttemptResult.ok e) :: tl)
          = (logs ++ [logEntry url (.ok e)]) ++ logsOf tl := by
        intro logs; simp [logsOf]
      have hstep : ∀ (rest : List (Str × AttemptResult)) (logs : List AttemptLog),
          processGo q us (((url, AttemptResult.ok e) :: tl) ++ rest) bp rank logs
          = if e.verified ∧ (0.8 : ℚ) ≤ e.score then
              mkTrusted q us e (logs ++ [logEntry url (.ok e)])
            else if rank < rankOf e then
              processGo q us (tl ++ rest) (some e) (rankOf e)
                (logs ++ [logEntry url (.ok e)])
            else
              processGo q us (tl ++ rest) bp rank
                (logs ++ [logEntry url (.ok e)]) := fun _ _ => rfl
      by_cases hrk : rank < rankOf e
      · obtain ⟨bp', rank', hres⟩ := ih htl (some e) (rankOf e)
        refine ⟨bp', rank', fun rest logs => ?_⟩
        rw [hstep rest logs, if_neg hnt, if_pos hrk, hres rest _, ← hlogs logs]
      · obtain ⟨bp', rank', hres⟩ := ih htl bp rank
        refine ⟨bp', rank', fun rest logs => ?_⟩
        rw [hstep rest logs, if_neg hnt, if_neg hrk, hres rest _, ← hlogs logs]

lemma processGo_trusted (q : Str) (us : List Str)
    (l₁ : List (Str × AttemptResult)) (h₁ : ∀ p ∈ l₁, trustedHit p.2 = false)
    (u : Str) (e : Extracted) (hv : e.verified = true)
    (hs : (0.8 : ℚ) ≤ e.score) (l₂ : List (Str × AttemptResult))
    (bp : Option Extracted) (rank : ℚ) (logs : List AttemptLog) :
    processGo q us (l₁ ++ (u, .ok e) :: l₂) bp rank logs
      = mkTrusted q us e (logs ++ logsOf l₁ ++ [logEntry u (.ok e)]) := by
  obtain ⟨bp', rank', hres⟩ := processGo_append_nontrusted q us l₁ h₁ bp rank
  rw [hres ((u, .ok e) :: l₂) logs]
  have hstep : processGo q us ((u, AttemptResult.ok e) :: l₂) bp' rank'
      (logs ++ logsOf l₁)
      = if e.verified ∧ (0.8 : ℚ) ≤ e.score then
          mkTrusted q us e (logs ++ logsOf l₁ ++ [logEntry u (.ok e)])
        else if rank' < rankOf e then
          processGo q us l₂ (some e) (rankOf e)
            (logs ++ logsOf l₁ ++ [logEntry u (.ok e)])
        else
          processGo q us l₂ bp' rank'
            (logs ++ logsOf l₁ ++ [logEntry u (.ok e)]) := rfl
  rw [hstep, if_pos ⟨by exact_mod_cast hv, hs⟩]

lemma processGo_pending_acc (q : Str) (us : List Str)
    (l : List (Str × AttemptResult)) :
    (∀ p ∈ l, trustedHit p.2 = false) →
    ∀ (b : Extracted) (logs : List AttemptLog),
      processGo q us l (some b) (rankOf b) logs
        = mkPending q us (codeBest b (extractedOf l)) (logs ++ logsOf l) := by
  induction l with
  | nil => intro _ b logs; simp [processGo, extractedOf, codeBest, logsOf]
  | cons hd tl ih =>
    intro h b logs
    obtain ⟨url, r⟩ := hd
    have htl : ∀ p ∈ tl, trustedHit p.2 = false := fun p hp =>
      h p (List.mem_cons_of_mem _ hp)
    cases r with
    | exc m =>
      have hstep : processGo q us ((url, AttemptResult.exc m) :: tl) (some b)
          (rankOf b) logs
          = processGo q us tl (some b) (rankOf b)
            (logs ++ [logEntry url (.exc m)]) := rfl
      have hex : extractedOf ((url, AttemptResult.exc m) :: tl) = extractedOf tl := by
        simp [extractedOf, List.filterMap_cons]
      have hlogs : logs ++ logsOf ((url, AttemptResult.exc m) :: tl)
          = (logs ++ [logEntry url (.exc m)]) ++ logsOf tl := by simp [logsOf]
      rw [hstep, ih htl b _, hex, hlogs]
    | httpError c =>
      have hstep : processGo q us ((url, AttemptResult.httpError c) :: tl) (some b)
          (rankOf b) logs
          = processGo q us tl (some b) (rankOf b)
            (logs ++ [logEntry url (.httpError c)]) := rfl
      have hex : extractedOf ((url, AttemptResult.httpError c) :: tl) = extractedOf tl := by
        simp [extractedOf, List.filterMap_cons]
      have hlogs : logs ++ logsOf ((url, AttemptResult.httpError c) :: tl)
          = (logs ++ [logEntry url (.httpError c)]) ++ logsOf tl := by simp [logsOf]
      rw [hstep, ih htl b _, hex, hlogs]
    | noExtract =>
      have hstep : processGo q us ((url, AttemptResult.noExtract) :: tl) (some b)
          (rankOf b) logs
          = processGo q us tl (some b) (rankOf b)
            (logs ++ [logEntry url (.noExtract)]) := rfl
      have hex : extractedOf ((url, AttemptResult.noExtract) :: tl) = extractedOf tl := by
        simp [extractedOf, List.filterMap_cons]
      have hlogs : logs ++ logsOf ((url, AttemptResult.noExtract) :: tl)
          = (logs ++ [logEntry url (.noExtract)]) ++ logsOf tl := by simp [logsOf]
      rw [hstep, ih htl b _, hex, hlogs]
    | ok e =>
      have hnt : ¬(e.verified ∧ (0.8 : ℚ) ≤ e.score) :=
        (trustedHit_false_iff e).mp (h (url, .ok e) (List.mem_cons_self _ _))
      have hstep : processGo q us ((url, AttemptResult.ok e) :: tl) (some b)
          (rankOf b) logs
          = if e.verified ∧ (0.8 : ℚ) ≤ e.score then
              mkTrusted q us e (logs ++ [logEntry url (.ok e)])
            else if rankOf b < rankOf e then
              processGo q us tl (some e) (rankOf e)
                (logs ++ [logEntry url (.ok e)])
            else
              processGo q us tl (some b) (rankOf b)
                (logs ++ [logEntry url (.ok e)]) := rfl
      have hex : extractedOf ((url, AttemptResult.ok e) :: tl) = e :: extractedOf tl := by
        simp [extractedOf, List.filterMap_cons]
      have hlogs : logs ++ logsOf ((url, AttemptResult.ok e) :: tl)
          = (logs ++ [logEntry url (.ok e)]) ++ logsOf tl := by simp [logsOf]
      have hcb : codeBest b (extractedOf ((url, AttemptResult.ok e) :: tl))
          = codeBest (if rankOf b < rankOf e then e else b) (extractedOf tl) := by
        rw [hex]; rfl
      by_cases hrk : rankOf b < rankOf e
      · rw [hstep, if_neg hnt, if_pos hrk, ih htl e _, hcb, if_pos hrk, hlogs]
      · rw [hstep, if_neg hnt, if_neg hrk, ih htl b _, hcb, if_neg hrk, hlogs]

/-- The spec-level selector: the first extraction attaining the maximal rank. -/
def bestTentative : List Extracted → Option Extracted
  | [] => none
  | e :: es => some (codeBest e es)

lemma processGo_start (q : Str) (us : List Str)
    (l : List (Str × AttemptResult)) :
    (∀ p ∈ l, trustedHit p.2 = false) →
    (∀ e ∈ extractedOf l, (0 : ℚ) ≤ e.score) →
    ∀ logs : List AttemptLog,
      processGo q us l none (-1) logs
        = match bestTentative (extractedOf l) with
          | none => mkNotFound q us (logs ++ logsOf l)
          | some b => mkPending q us b (logs ++ logsOf l) := by
  induction l with
  | nil => intro _ _ logs; simp [processGo, extractedOf, bestTentative, logsOf]
  | cons hd tl ih =>
    intro h hsc logs
    obtain ⟨url, r⟩ := hd
    have htl : ∀ p ∈ tl, trustedHit p.2 = false := fun p hp =>
      h p (List.mem_cons_of_mem _ hp)
    have hlogs : ∀ (s : Str × AttemptResult), logs ++ logsOf (s :: tl)
        = (logs ++ [logEntry s.1 s.2]) ++ logsOf tl := by
      intro s; simp [logsOf]
    cases r with
    | exc m =>
      have hstep : processGo q us ((url, AttemptResult.exc m) :: tl) none (-1) logs
          = processGo q us tl none (-1) (logs ++ [logEntry url (.exc m)]) := rfl
      have hex : extractedOf ((url, AttemptResult.exc m) :: tl) = extractedOf tl := by
        simp [extractedOf, List.filterMap_cons]
      rw [hstep, ih htl (by rw [hex] at hsc; exact hsc) _, hex, hlogs (url, .exc m)]
    | httpError c =>
      have hstep : processGo q us ((url, AttemptResult.httpError c) :: tl) none (-1) logs
          = processGo q us tl none (-1) (logs ++ [logEntry url (.httpError c)]) := rfl
      have hex : extractedOf ((url, AttemptResult.httpError c) :: tl) = extractedOf tl := by
        simp [extractedOf, List.filterMap_cons]
      rw [hstep, ih htl (by rw [hex] at hsc; exact hsc) _, hex, hlogs (url, .httpError c)]
    | noExtract =>
      have hstep : processGo q us ((url, AttemptResult.noExtract) :: tl) none (-1) logs
          = processGo q us tl none (-1) (logs ++ [logEntry url (.noExtract)]) := rfl
      have hex : extractedOf ((url, AttemptResult.noExtract) :: tl) = extractedOf tl := by
        simp [extractedOf, List.filterMap_cons]
      rw [hstep, ih htl (by rw [hex] at hsc; exact hsc) _, hex, hlogs (url, .noExtract)]
    | ok e =>
      have hnt : ¬(e.verified ∧ (0.8 : ℚ) ≤ e.score) :=
        (trustedHit_false_iff e).mp (h (url, .ok e) (List.mem_cons_self _ _))
      have hex : extractedOf ((url, AttemptResult.ok e) :: tl) = e :: extractedOf tl := by
        simp [extractedOf, List.filterMap_cons]
      have hse : (0 : ℚ) ≤ e.score := by
        apply hsc; rw [hex]; exact List.mem_cons_self _ _
      have hrk : (-1 : ℚ) < rankOf e := by
        have : (0 : ℚ) ≤ rankOf e := by
          unfold rankOf
          cases hv : e.verified <;> simp [hv] <;> linarith
        linarith
      have hstep : processGo q us ((url, AttemptResult.ok e) :: tl) none (-1) logs
          = if e.verified ∧ (0.8 : ℚ) ≤ e.score then
              mkTrusted q us e (logs ++ [logEntry url (.ok e)])
            else if (-1 : ℚ) < rankOf e then
              processGo q us tl (some e) (rankOf e)
                (logs ++ [logEntry url (.ok e)])
            else
              processGo q us tl none (-1)
                (logs ++ [logEntry url (.ok e)]) := rfl
      rw [hstep, if_neg hnt, if_pos hrk, processGo_pending_acc q us tl htl e _,
        hex, hlogs (url, .ok e)]
      rfl

/-- The outcome fields other than the diagnostic `debug` payload. -/
def outcomeCore (o : HarvestOutcome) :
    Str × ℚ × Option Str × Option Str × Option Str :=
  (o.status, o.confidence, o.raw_ingredient_text, o.source_ref, o.source_type)

lemma processGo_attempts (q : Str) (us : List Str) :
    ∀ (l : List (Str × AttemptResult)) (bp : Option Extracted) (rank : ℚ)
      (logs : List AttemptLog),
      (processGo q us l bp rank logs).attempts
        = logs ++ (processGo q us l bp rank []).attempts := by
  intro l
  induction l with
  | nil =>
    intro bp rank logs
    cases bp <;> simp [processGo, mkPending, mkNotFound]
  | cons hd tl ih =>
    intro bp rank logs
    obtain ⟨url, r⟩ := hd
    cases r with
    | exc m =>
      have hstep : ∀ lg : List AttemptLog,
          processGo q us ((url, AttemptResult.exc m) :: tl) bp rank lg
          = processGo q us tl bp rank (lg ++ [logEntry url (.exc m)]) := fun _ => rfl
      rw [hstep, hstep, ih bp rank (logs ++ [logEntry url (.exc m)]),
        ih bp rank ([] ++ [logEntry url (.exc m)])]
      simp
    | httpError c =>
      have hstep : ∀ lg : List AttemptLog,
          processGo q us ((url, AttemptResult.httpError c) :: tl) bp rank lg
          = processGo q us tl bp rank (lg ++ [logEntry url (.httpError c)]) := fun _ => rfl
      rw [hstep, hstep, ih bp rank (logs ++ [logEntry url (.httpError c)]),
        ih bp rank ([] ++ [logEntry url (.httpError c)])]
      simp
    | noExtract =>
      have hstep : ∀ lg : List AttemptLog,
          processGo q us ((url, AttemptResult.noExtract) :: tl) bp rank lg
          = processGo q us tl bp rank (lg ++ [logEntry url (.noExtract)]) := fun _ => rfl
      rw [hstep, hstep, ih bp rank (logs ++ [logEntry url (.noExtract)]),
        ih bp rank ([] ++ [logEntry url (.noExtract)])]
      simp
    | ok e =>
      have hstep : ∀ lg : List AttemptLog,
          processGo q us ((url, AttemptResult.ok e) :: tl) bp rank lg
          = if e.verified ∧ (0.8 : ℚ) ≤ e.score then
              mkTrusted q us e (lg ++ [logEntry url (.ok e)])
            else if rank < rankOf e then
              processGo q us tl (some e) (rankOf e) (lg ++ [logEntry url (.ok e)])
            else
              processGo q us tl bp rank (lg ++ [logEntry url (.ok e)]) := fun _ => rfl
      by_cases hc : e.verified ∧ (0.8 : ℚ) ≤ e.score
      · rw [hstep, hstep, if_pos hc, if_pos hc]; simp [mkTrusted]
      · by_cases hrk : rank < rankOf e
        · rw [hstep, hstep, if_neg hc, if_neg hc, if_pos hrk, if_pos hrk,
            ih (some e) (rankOf e) (logs ++ [logEntry url (.ok e)]),
            ih (some e) (rankOf e) ([] ++ [logEntry url (.ok e)])]
          simp
        · rw [hstep, hstep, if_neg hc, if_neg hc, if_neg hrk, if_neg hrk,
            ih bp rank (logs ++ [logEntry url (.ok e)]),
            ih bp rank ([] ++ [logEntry url (.ok e)])]
          simp

lemma processGo_core_logs (q : Str) (us : List Str) :
    ∀ (l : List (Str × AttemptResult)) (bp : Option Extracted) (rank : ℚ)
      (logs logs' : List AttemptLog),
      outcomeCore (processGo q us l bp rank logs)
        = outcomeCore (processGo q us l bp rank logs') := by
  intro l
  induction l with
  | nil =>
    intro bp rank logs logs'
    cases bp <;> rfl
  | cons hd tl ih =>
    intro bp rank logs logs'
    obtain ⟨url, r⟩ := hd
    cases r with
    | exc m => exact ih bp rank _ _
    | httpError c => exact ih bp rank _ _
    | noExtract => exact ih bp rank _ _
    | ok e =>
      have hstep : ∀ lg : List AttemptLog,
          processGo q us ((url, AttemptResult.ok e) :: tl) bp rank lg
          = if e.verified ∧ (0.8 : ℚ) ≤ e.score then
              mkTrusted q us e (lg ++ [logEntry url (.ok e)])
            else if rank < rankOf e then
              processGo q us tl (some e) (rankOf e) (lg ++ [logEntry url (.ok e)])
            else
              processGo q us tl bp rank (lg ++ [logEntry url (.ok e)]) := fun _ => rfl
      by_cases hc : e.verified ∧ (0.8 : ℚ) ≤ e.score
      · rw [hstep, hstep, if_pos hc, if_pos hc]; rfl
      · by_cases hrk : rank < rankOf e
        · rw [hstep, hstep, if_neg hc, if_neg hc, if_pos hrk, if_pos hrk]
          exact ih (some e) (rankOf e) _ _
        · rw [hstep, hstep, if_neg hc, if_neg hc, if_neg hrk, if_neg hrk]
          exact ih bp rank _ _

/-- Claim C4: the harvest loop returns immediately, with a TRUSTED (`OK`)
outcome built from the first verified extraction scoring ≥ 0.8 — confidence
`min(1, score)`, that extraction's text, its resolved URL and host-classified
source type — regardless of the remaining URLs; and when no URL yields such an
extraction, the outcome is TENTATIVE (`PENDING`), built (with confidence
clamped to [0.3, 0.8]) from the extraction maximizing
`rank = score + (0.05 if verified)`, the earliest one winning rank ties. -/
theorem harvest_trusted_shortcircuit_and_best_tentative
    (market brand product_name : Str) (search_urls : List Str)
    (attempt : Str → AttemptResult) :
    let q := build_query market brand product_name
    let l := (search_urls.take 3).map (fun u => (u, attempt u))
    (∀ (l₁ : List (Str × AttemptResult)) (u : Str) (e : Extracted)
        (l₂ : List (Str × AttemptResult)),
      l = l₁ ++ (u, AttemptResult.ok e) :: l₂ →
      (∀ p ∈ l₁, trustedHit p.2 = false) →
      e.verified = true → (0.8 : ℚ) ≤ e.score →
      process market brand product_name search_urls attempt
        = mkTrusted q search_urls e (logsOf l₁ ++ [logEntry u (.ok e)])) ∧
    ((∀ p ∈ l, trustedHit p.2 = false) →
      (∀ e ∈ extractedOf l, (0 : ℚ) ≤ e.score) →
      extractedOf l ≠ [] →
      ∃ b l₁ l₂, extractedOf l = l₁ ++ b :: l₂ ∧
        (∀ e ∈ l₁, rankOf e < rankOf b) ∧
        (∀ e ∈ l₂, rankOf e ≤ rankOf b) ∧
        process market brand product_name search_urls attempt
          = mkPending q search_urls b (logsOf l)) := by
  constructor
  · intro l₁ u e l₂ hdec h₁ hv hs
    have hproc : process market brand product_name search_urls attempt
        = processGo (build_query market brand product_name) search_urls
            ((search_urls.take 3).map (fun u => (u, attempt u))) none (-1) [] := rfl
    rw [hproc, hdec, processGo_trusted _ _ l₁ h₁ u e hv hs l₂ none (-1) []]
    simp
  · intro hnt hsc hne
    have hproc : process market brand product_name search_urls attempt
        = processGo (build_query market brand product_name) search_urls
            ((search_urls.take 3).map (fun u => (u, attempt u))) none (-1) [] := rfl
    rw [hproc, processGo_start _ _ _ hnt hsc []]
    cases hex : extractedOf ((search_urls.take 3).map (fun u => (u, attempt u))) with
    | nil => exact absurd hex hne
    | cons e es =>
      obtain ⟨m₁, m₂, hdec, hlt, hle⟩ := codeBest_decomp es e
      refine ⟨codeBest e es, m₁, m₂, hdec, hlt, hle, ?_⟩
      simp [bestTentative]

/-- Witness for C4: the first URL yields a verified extraction with score 0.9,
so the harvest returns the TRUSTED outcome built from it. -/
theorem harvest_trusted_shortcircuit_witness :
    process (str "US") (str "B") (str "P") [str "u1"]
        (fun _ => .ok ⟨str "W, G", 0.9, true, str "https://x/p", str "h"⟩)
      = mkTrusted (build_query (str "US") (str "B") (str "P")) [str "u1"]
          ⟨str "W, G", 0.9, true, str "https://x/p", str "h"⟩
          (logsOf [] ++ [logEntry (str "u1")
            (.ok ⟨str "W, G", 0.9, true, str "https://x/p", str "h"⟩)]) :=
  (harvest_trusted_shortcircuit_and_best_tentative (str "US") (str "B")
      (str "P") [str "u1"]
      (fun _ => .ok ⟨str "W, G", 0.9, true, str "https://x/p", str "h"⟩)).1
    [] (str "u1") ⟨str "W, G", 0.9, true, str "https://x/p", str "h"⟩ []
    rfl (fun p hp => absurd hp (List.not_mem_nil p)) rfl (by norm_num)

/-- Claim C9: an exception while processing one URL never aborts the harvest:
its truncated message is recorded as that URL's attempt diagnostic, the
remaining URLs are still processed, and the outcome's status, confidence,
text, source reference and source type agree with those of the loop run on
the remaining attempts alone. -/
theorem harvest_exception_isolated (market brand product_name : Str)
    (search_urls : List Str) (attempt : Str → AttemptResult) :
    let q := build_query market brand product_name
    let l := (search_urls.take 3).map (fun u => (u, attempt u))
    ∀ (l₁ : List (Str × AttemptResult)) (u m : Str)
      (l₂ : List (Str × AttemptResult)),
      l = l₁ ++ (u, AttemptResult.exc m) :: l₂ →
      (∀ p ∈ l₁, trustedHit p.2 = false) →
      outcomeCore (process market brand product_name search_urls attempt)
        = outcomeCore (processGo q search_urls (l₁ ++ l₂) none (-1) []) ∧
      ∃ tail, (process market brand product_name search_urls attempt).attempts
          = logsOf l₁ ++ AttemptLog.err u (m.take 200) :: tail ∧
        (processGo q search_urls (l₁ ++ l₂) none (-1) []).attempts
          = logsOf l₁ ++ tail := by
  intro q l l₁ u m l₂ hdec h₁
  have hproc : process market brand product_name search_urls attempt
      = processGo q search_urls l none (-1) [] := rfl
  obtain ⟨bp', rank', hsplit⟩ :=
    processGo_append_nontrusted q search_urls l₁ h₁ none (-1)
  have hL : processGo q search_urls l none (-1) []
      = processGo q search_urls l₂ bp' rank'
          (([] ++ logsOf l₁) ++ [logEntry u (.exc m)]) := by
    rw [hdec, hsplit ((u, AttemptResult.exc m) :: l₂) []]
    rfl
  have hR : processGo q search_urls (l₁ ++ l₂) none (-1) []
      = processGo q search_urls l₂ bp' rank' ([] ++ logsOf l₁) := hsplit l₂ []
  constructor
  · rw [hproc, hL, hR]
    exact processGo_core_logs q search_urls l₂ bp' rank' _ _
  · refine ⟨(processGo q search_urls l₂ bp' rank' []).attempts, ?_, ?_⟩
    · rw [hproc, hL, processGo_attempts q search_urls l₂ bp' rank']
      simp [logEntry]
    · rw [hR, processGo_attempts q search_urls l₂ bp' rank']
      simp

/-- Witness for C9: a single URL whose processing raises an exception. -/
theorem harvest_exception_isolated_witness :
    outcomeCore (process (str "US") (str "B") (str "P") [str "u1"]
        (fun _ => .exc (str "boom")))
      = outcomeCore (processGo (build_query (str "US") (str "B") (str "P"))
          [str "u1"] ([] ++ []) none (-1) []) ∧
    ∃ tail, (process (str "US") (str "B") (str "P") [str "u1"]
        (fun _ => .exc (str "boom"))).attempts
        = logsOf [] ++ AttemptLog.err (str "u1") ((str "boom").take 200) :: tail ∧
      (processGo (build_query (str "US") (str "B") (str "P"))
          [str "u1"] ([] ++ []) none (-1) []).attempts
        = logsOf [] ++ tail :=
  harvest_exception_isolated (str "US") (str "B") (str "P") [str "u1"]
    (fun _ => .exc (str "boom")) [] (str "u1") (str "boom") [] rfl
    (fun p hp => absurd hp (List.not_mem_nil p))

/- ## Candidate feature score (`extract.py`) -/

/-- Regex `\w` (ASCII word characters plus the CJK ideograph range). -/
def isWordChar (c : Char) : Bool :=
  ('a' ≤ c && c ≤ 'z') || ('A' ≤ c && c ≤ 'Z') || ('0' ≤ c && c ≤ '9') ||
    c = '_' || (0x4e00 ≤ c.toNat && c.toNat ≤ 0x9fff)

/-- Consume a (lowercase) literal case-insensitively; return the rest. -/
def litICAt : Str → Str → Option Str
  | [], s => some s
  | _ :: _, [] => none
  | l :: ls, c :: cs => if pyLowerChar c = l then litICAt ls cs else none

/-- Word boundary `\b` holds before the current position (previous character
absent or not a word character; used where the pattern continues with a word
character). -/
def prevNonWord : Option Char → Bool
  | none => true
  | some c => !isWordChar c

/-- Word boundary `\b` holds after a consumed word character. -/
def wordBoundaryAfter : Str → Bool
  | [] => true
  | c :: _ => !isWordChar c

/-- `<kw>\s+\w+` starting at the current position (after `\b<kw>` matched). -/
def kwThenWord (kw : Str) (s : Str) : Bool :=
  match litICAt kw s with
  | some (c :: rest) =>
    isSpace c && (match rest.dropWhile isSpace with
      | d :: _ => isWordChar d
      | [] => false)
  | _ => false

/-- One position of the `SCRIPT_OR_JSON_PATTERNS` alternation (searched with
`re.IGNORECASE`). -/
def scriptPatAt (prev : Option Char) (s : Str) : Bool :=
  (litICAt (str "self.__next_f.push") s).isSome ||
  (litICAt (str "__next_data__") s).isSome ||
  (prevNonWord prev &&
    (match litICAt (str "webpack") s with
     | some rest => wordBoundaryAfter rest
     | none => false)) ||
  (prevNonWord prev &&
    (match litICAt (str "function") s with
     | some rest =>
       (match rest.dropWhile isSpace with
        | '(' :: _ => true
        | _ => false)
     | none => false)) ||
  (prevNonWord prev && kwThenWord (str "var") s) ||
  (prevNonWord prev && kwThenWord (str "const") s) ||
  (prevNonWord prev && kwThenWord (str "let") s) ||
  (litICAt (str "=>") s).isSome ||
  (prevNonWord prev &&
    (match litICAt (str "window") s with
     | some ('.' :: _) => true
     | _ => false)) ||
  (prevNonWord prev &&
    (match litICAt (str "document") s with
     | some ('.' :: _) => true
     | _ => false)) ||
  (litICAt (str "\"assetsurl\"") s).isSome ||
  (litICAt (str "\"buildid\"") s).isSome ||
  (litICAt (str "\"pageprops\"") s).isSome

/-- `re.search` over the joined script/JSON patterns. -/
def scriptScan : Option Char → Str → Bool
  | _, [] => false
  | prev, c :: rest => scriptPatAt prev (c :: rest) || scriptScan (some c) rest

/-- Whether the stripped candidate begins with `{` or `[` (after `lstrip`). -/
def startsBrace (s : Str) : Bool :=
  match s.dropWhile isSpace with
  | c :: _ => c = '{' || c = '['
  | [] => false

/-- `_looks_like_script_or_json(text)` from `extract.py`. -/
def looksLikeScriptOrJson (text : Str) : Bool :=
  let t := pyStrip text
  if t.isEmpty then false
  else if 120 ≤ t.length ∧ startsBrace t then true
  else if scriptScan none t then true
  else if 3 ≤ t.count '{' ∧ 3 ≤ t.count '}' ∧ 4 ≤ t.count ':' ∧
      4 ≤ t.count '"' then true
  else false

/-- The separator class `[,;，；]` of the token-density split. -/
def isSepScore (c : Char) : Bool := c = ',' || c = ';' || c = '，' || c = '；'

lemma length_dropWhile_le' (p : Char → Bool) (l : Str) :
    (l.dropWhile p).length ≤ l.length := by
  induction l with
  | nil => simp [List.dropWhile]
  | cons c rest ih =>
    by_cases h : p c
    · simp only [List.dropWhile, h]
      exact le_trans ih (Nat.le_succ _)
    · simp [List.dropWhile, h]

/-- `re.split(r"[,;，；]\s*", t)`: each separator character plus the following
whitespace ends one piece. -/
def resplitGo : Str → Str → List Str
  | buf, [] => [buf.reverse]
  | buf, c :: rest =>
    if isSepScore c then buf.reverse :: resplitGo [] (rest.dropWhile isSpace)
    else resplitGo (c :: buf) rest
termination_by _ s => s.length
decreasing_by
  · simp_wf
    have := length_dropWhile_le' isSpace rest
    omega
  · simp_wf

/-- `COMMON_TOKENS` from `extract.py`. -/
def COMMON_TOKENS : List Str :=
  [str "water", str "aqua", str "glycerin", str "alcohol", str "fragrance",
   str "parfum", str "sodium", str "citric", str "acid", str "ethanol",
   str "乙醇", str "甘油", str "水"]

/-- `_feature_score(text)` from `extract.py`. -/
def feature_score (text : Str) : ℚ :=
  let t := pyStrip text
  if t.isEmpty then 0
  else if t.length < 10 then 0.1
  else if 3000 < t.length then 0.2
  else if looksLikeScriptOrJson t then 0.05
  else
    let score₁ : ℚ :=
      if containsSub t (str ",") || containsSub t (str ";") ||
          containsSub t (str "，") || containsSub t (str "；") then 0.35 else 0
    let lower := pyLower t
    let hits : ℕ := (COMMON_TOKENS.filter (fun tok => containsSub lower tok)).length
    let score₂ := score₁ + min 0.35 ((hits : ℚ) * 0.08)
    let parts := resplitGo [] t
    let token_count := (parts.filter (fun p => !(pyStrip p).isEmpty)).length
    let score₃ :=
      if 5 ≤ token_count then score₂ + 0.3
      else if 4 ≤ token_count then score₂ + 0.25
      else score₂
    min 1 score₃

/- ## Ingredient parser (`services/ingredient_parser.py`) -/

/-- ASCII alphanumeric test (`[A-Za-z0-9]`). -/
def isAsciiAlnum (c : Char) : Bool :=
  ('a' ≤ c && c ≤ 'z') || ('A' ≤ c && c ≤ 'Z') || ('0' ≤ c && c ≤ '9')

/-- Generic global regex substitution (`re.sub`): at each position try a
match; on success emit the replacement and resume after the matched span,
otherwise advance one character.  `fuel` bounds the number of scan steps and
is always called with more than the input length; every pattern substituted
this way matches at least one character, so the fuel never runs out. -/
def scanSub (try_ : Str → Option (Str × Str)) : Nat → Str → Str
  | 0, s => s
  | _ + 1, [] => []
  | fuel + 1, c :: rest =>
    match try_ (c :: rest) with
    | some (rep, after) => rep ++ scanSub try_ fuel after
    | none => c :: scanSub try_ fuel rest

/-- `_URL_RE` (`https?://[^\s)]+`, case-insensitive) at the current position;
the replacement is a single space. -/
def tryUrl (s : Str) : Option (Str × Str) :=
  match litICAt (str "http") s with
  | none => none
  | some r =>
    let tail := fun (r' : Str) =>
      match litICAt (str "://") r' with
      | none => none
      | some body =>
        let run := body.takeWhile (fun c => !(isSpace c || c = ')'))
        if run.isEmpty then none
        else some ((str " "), body.drop run.length)
    match litICAt (str "s") r with
    | some r2 =>
      match tail r2 with
      | some res => some res
      | none => tail r
    | none => tail r

/-- Character class `[A-Za-z0-9_-]` of the hashtag body. -/
def isTagChar (c : Char) : Bool := isAsciiAlnum c || c = '_' || c = '-'

/-- The separator group `(^|[\s,;，；])` of `_HASHTAG_RE`. -/
def isHashSep (c : Char) : Bool :=
  isSpace c || c = ',' || c = ';' || c = '，' || c = '；'

/-- `#[A-Za-z0-9][A-Za-z0-9_-]{0,40}` from the current position; returns the
rest after the matched body. -/
def tryHashBody : Str → Option Str
  | '#' :: c :: rest =>
    if isAsciiAlnum c then
      some (rest.drop (min (rest.takeWhile isTagChar).length 40))
    else none
  | _ => none

/-- The scan of `_HASHTAG_RE.sub(r"\1", s)` past the start of the string:
a hashtag is removed when preceded by a separator character, which the
group keeps. -/
def hashScanGo : Nat → Str → Str
  | 0, s => s
  | _ + 1, [] => []
  | fuel + 1, d :: rest =>
    if isHashSep d then
      match tryHashBody rest with
      | some after => d :: hashScanGo fuel after
      | none => d :: hashScanGo fuel rest
    else d :: hashScanGo fuel rest

/-- `_HASHTAG_RE.sub(r"\1", s)`: the `^` alternative of the group can only
fire at position 0. -/
def hashtagSub (s : Str) : Str :=
  match tryHashBody s with
  | some after => hashScanGo (after.length + 1) after
  | none => hashScanGo (s.length + 1) s

/-- `_BRACKET_MORE_LESS_RE` (`\[\s*(?:more|less)\s*\]`, case-insensitive);
the replacement is a single space. -/
def tryBracketTok : Str → Option (Str × Str)
  | '[' :: t =>
    let t₁ := t.dropWhile isSpace
    let afterWord :=
      match litICAt (str "more") t₁ with
      | some r => some r
      | none => litICAt (str "less") t₁
    match afterWord with
    | some r =>
      match r.dropWhile isSpace with
      | ']' :: rest => some (str " ", rest)
      | _ => none
    | none => none
  | _ => none

/-- A sequence of literal words joined by `\s+`, case-insensitively. -/
def phraseSeq : List Str → Str → Option Str
  | [], s => some s
  | [w], s => litICAt w s
  | w :: ws, s =>
    match litICAt w s with
    | none => none
    | some r =>
      let r' := r.dropWhile isSpace
      if r'.length < r.length then phraseSeq ws r' else none

/-- Mandatory `\s+` gap followed by a word sequence. -/
def afterGap (ws : List Str) (r : Str) : Option Str :=
  let r' := r.dropWhile isSpace
  if r'.length < r.length then phraseSeq ws r' else none

/-- `_UI_ARTIFACT_PHRASES_RE` at the current position, alternatives in source
order with greedy optional suffixes; the replacement is a single space. -/
def tryUIPhrase (s : Str) : Option (Str × Str) :=
  match phraseSeq [str "read", str "more"] s with
  | some rest =>
    match afterGap [str "on", str "how", str "to", str "read", str "an",
        str "ingredient", str "list"] rest with
    | some rest₂ => some (str " ", rest₂)
    | none => some (str " ", rest)
  | none =>
  match phraseSeq [str "read", str "less"] s with
  | some rest => some (str " ", rest)
  | none =>
  match phraseSeq [str "show", str "more"] s with
  | some rest => some (str " ", rest)
  | none =>
  match phraseSeq [str "show", str "less"] s with
  | some rest => some (str " ", rest)
  | none =>
  match phraseSeq [str "see", str "more"] s with
  | some rest => some (str " ", rest)
  | none =>
  match phraseSeq [str "see", str "less"] s with
  | some rest => some (str " ", rest)
  | none =>
  match phraseSeq [str "view", str "full", str "list"] s with
  | some rest => some (str " ", rest)
  | none =>
  match phraseSeq [str "click", str "here"] s with
  | some rest => some (str " ", rest)
  | none =>
  match phraseSeq [str "see", str "text"] s with
  | some rest => some (str " ", rest)
  | none =>
  match phraseSeq [str "show", str "all", str "ingredients"] s with
  | some rest =>
    match afterGap [str "by", str "function"] rest with
    | some rest₂ => some (str " ", rest₂)
    | none => some (str " ", rest)
  | none =>
  match (match litICAt (str "ingredients") s with
         | some r => afterGap [str "by", str "function"] r
         | none => none) with
  | some rest => some (str " ", rest)
  | none =>
  match (match litICAt (str "ingredient") s with
         | some r => afterGap [str "by", str "function"] r
         | none => none) with
  | some rest => some (str " ", rest)
  | none =>
  match phraseSeq [str "how", str "to", str "read", str "an",
      str "ingredient", str "list"] s with
  | some rest => some (str " ", rest)
  | none => none

/-- Tail `\s*(?:\.{3,}|…)?\s*$` of the `and`/`&` truncation alternative
(`$` is the end of the string). -/
def truncTail (r : Str) : Bool :=
  let r₁ := r.dropWhile isSpace
  let r₂ :=
    match r₁ with
    | '…' :: t => t
    | _ =>
      let dots := r₁.takeWhile (· = '.')
      if 3 ≤ dots.length then r₁.drop dots.length else r₁
  (r₂.dropWhile isSpace).isEmpty

/-- `_TRUNCATION_END_RE` matching at the current position (the match always
extends to the end of the string). -/
def tryTrunc (prev : Option Char) (s : Str) : Bool :=
  (prevNonWord prev &&
    (match litICAt (str "and") s with
     | some r => wordBoundaryAfter r && truncTail r
     | none => false)) ||
  ((match prev with | some c => isWordChar c | none => false) &&
    (match s with
     | '&' :: r =>
       (match r with | c :: _ => isWordChar c | [] => false) && truncTail r
     | _ => false)) ||
  (prevNonWord prev &&
    (match litICAt (str "etc") s with
     | some r =>
       (match r with
        | '.' :: t => (t.dropWhile isSpace).isEmpty
        | _ => (r.dropWhile isSpace).isEmpty)
     | none => false))

/-- `_TRUNCATION_END_RE.sub("", s)`. -/
def truncSubGo : Option Char → Str → Str
  | _, [] => []
  | prev, c :: rest =>
    if tryTrunc prev (c :: rest) then [] else c :: truncSubGo (some c) rest

/-- `_ELLIPSIS_RE` (`\.{3,}|…+`); the replacement is a single space. -/
def tryEllipsis : Str → Option (Str × Str)
  | s@('.' :: _) =>
    let dots := s.takeWhile (· = '.')
    if 3 ≤ dots.length then some (str " ", s.drop dots.length) else none
  | s@('…' :: _) => some (str " ", s.drop (s.takeWhile (· = '…')).length)
  | _ => none

/-- `re.sub(r"\s+", " ", s)`: each maximal whitespace run becomes one space. -/
def collapseGo : Bool → Str → Str
  | _, [] => []
  | inRun, c :: rest =>
    if isSpace c then
      if inRun then collapseGo true rest else ' ' :: collapseGo true rest
    else c :: collapseGo false rest

/-- Whitespace-run collapsing. -/
def collapseWs (s : Str) : Str := collapseGo false s

/-- The zero-width / BOM characters removed by the noise cleaner. -/
def ZERO_WIDTH : Str := ['​', '‌', '‍', '﻿']

/-- One substitution step of `clean_noise`, recording the note when the text
changed. -/
def noteStep (f : Str → Str) (note : Str) (p : Str × List Str) : Str × List Str :=
  let s2 := f p.1
  if s2 = p.1 then p else (s2, p.2 ++ [note])

/-- The trailing-punctuation strip set `"。．. ;；,，"`. -/
def EDGE_PUNCT : Str := str "。．. ;；,，"

/-- The substitution chain of `clean_noise` before the final whitespace and
punctuation normalization. -/
def cleanNoiseCore (s0 : Str) : Str × List Str :=
  let p1 :=
    if ZERO_WIDTH.any (fun ch => s0.contains ch) then
      (s0.filter (fun c => !ZERO_WIDTH.contains c),
        [str "Removed zero-width spaces"])
    else (s0, [])
  let p2 := noteStep (fun s => scanSub tryUrl (s.length + 1) s)
    (str "Stripped URL(s)") p1
  let p3 := noteStep hashtagSub (str "Removed marketing hashtag(s)") p2
  let p4 := noteStep (fun s => scanSub tryBracketTok (s.length + 1) s)
    (str "Removed UI bracket token(s)") p3
  let p5 := noteStep (fun s => scanSub tryUIPhrase (s.length + 1) s)
    (str "Removed UI phrase(s)") p4
  let p6 := noteStep (truncSubGo none) (str "Removed truncation ending") p5
  let p7 := noteStep (fun s => scanSub tryEllipsis (s.length + 1) s)
    (str "Removed ellipsis artifact(s)") p6
  noteStep (truncSubGo none) (str "Removed truncation ending") p7

/-- The final two normalization lines of `clean_noise`
(`re.sub(r"\s+", " ", s).strip()` then `s.strip().strip("。．. ;；,，")`). -/
def cleanFinal (x : Str) : Str :=
  pyStripChars EDGE_PUNCT (pyStrip (pyStrip (collapseWs x)))

/-- `clean_noise(text)` from `services/ingredient_parser.py`: returns the
cleaned text and the list of normalization notes. -/
def clean_noise (text : Str) : Str × List Str :=
  let s0 := pyStrip text
  if s0.isEmpty then ([], [])
  else
    let p8 := cleanNoiseCore s0
    (cleanFinal p8.1, p8.2)

/-- The placeholder set of `_coerce_text`. -/
def COERCE_PLACEHOLDERS : List Str :=
  [str "nan", str "none", str "null", str "n/a", str "na"]

/-- `_coerce_text(value)` for string inputs. -/
def coerce_text (raw : Str) : Str :=
  let s := pyStrip raw
  if s.isEmpty then []
  else if COERCE_PLACEHOLDERS.contains (pyLower (pyStrip s)) then []
  else s

/-- `INVALID_EXACT` from `services/ingredient_parser.py`. -/
def INVALID_EXACT : List Str :=
  [str "n/a", str "na", str "none", str "null", str "nan"]

/-- `INVALID_PHRASES_EN`. -/
def INVALID_PHRASES_EN : List Str :=
  [str "see image", str "see packaging", str "see package", str "see back",
   str "refer to packaging", str "not available"]

/-- `INVALID_PHRASES_ZH`. -/
def INVALID_PHRASES_ZH : List Str :=
  [str "详见包装", str "见包装", str "见外包装", str "见图片", str "请见包装"]

/-- The `\s*[:：]\s*` tail of the label-prefix patterns. -/
def labelTail (s : Str) : Option Str :=
  match s.dropWhile isSpace with
  | c :: r => if c = ':' ∨ c = '：' then some (r.dropWhile isSpace) else none
  | [] => none

/-- `<w₁>\s+<w₂>` case-insensitively. -/
def litGapLit (w₁ w₂ : Str) (s : Str) : Option Str :=
  match litICAt w₁ s with
  | some r =>
    let r' := r.dropWhile isSpace
    if r'.length < r.length then litICAt w₂ r' else none
  | none => none

/-- `LABEL_PREFIX_RE.sub("", s)` (anchored; alternatives in backtracking
order: `ingredients`, `ingredient`, `ingredient list`, `ingredients list`,
`inci`, `inci list`, each followed by `\s*[:：]\s*`). -/
def stripLabelPrefixEn (s : Str) : Str :=
  let t := s.dropWhile isSpace
  (((litICAt (str "ingredients") t).bind labelTail) <|>
   ((litICAt (str "ingredient") t).bind labelTail) <|>
   ((litGapLit (str "ingredient") (str "list") t).bind labelTail) <|>
   ((litGapLit (str "ingredients") (str "list") t).bind labelTail) <|>
   ((litICAt (str "inci") t).bind labelTail) <|>
   ((litGapLit (str "inci") (str "list") t).bind labelTail)).getD s

/-- `LABEL_PREFIX_ZH_RE.sub("", s)`. -/
def stripLabelPrefixZh (s : Str) : Str :=
  let t := s.dropWhile isSpace
  (((litICAt (str "全成分") t).bind labelTail) <|>
   ((litICAt (str "成分") t).bind labelTail) <|>
   ((litICAt (str "配料") t).bind labelTail) <|>
   ((litICAt (str "配方") t).bind labelTail)).getD s

/-- `_preprocess(raw)`. -/
def preprocess (raw : Str) : Str :=
  let s := pyStrip raw
  let s := stripLabelPrefixEn s
  let s := stripLabelPrefixZh s
  let s := pyStripChars EDGE_PUNCT (pyStrip s)
  pyStrip (collapseWs s)

/-- `_looks_invalid_blob(text)`. -/
def looks_invalid_blob (text : Str) : Bool :=
  let t := pyStrip text
  if t.isEmpty then true
  else
    let low := pyLower t
    if INVALID_EXACT.contains low then true
    else if INVALID_PHRASES_EN.any (fun p => containsSub low p) then true
    else if INVALID_PHRASES_ZH.any (fun p => containsSub t p) then true
    else false

/-- Bracket openers of `_split_outside_parens`. -/
def OPENERS : Str := ['(', '（', '[', '【', '{']

/-- Bracket closers of `_split_outside_parens`. -/
def CLOSERS : Str := [')', '）', ']', '】', '}']

/-- The loop of `_split_outside_parens`, carrying the reversed buffer and
bracket depth. -/
def sopGo (seps : Char → Bool) : Str → Str → Nat → List Str
  | [], buf, _ =>
    let last := pyStrip buf.reverse
    if last.isEmpty then [] else [last]
  | ch :: rest, buf, depth =>
    if OPENERS.contains ch then sopGo seps rest (ch :: buf) (depth + 1)
    else if CLOSERS.contains ch ∧ 0 < depth then sopGo seps rest (ch :: buf) (depth - 1)
    else if depth = 0 ∧ seps ch then
      let token := pyStrip buf.reverse
      (if token.isEmpty then ([] : List Str) else [token]) ++ sopGo seps rest [] 0
    else sopGo seps rest (ch :: buf) depth

/-- `_split_outside_parens(text, separators)`. -/
def split_outside_parens (text : Str) (seps : Char → Bool) : List Str :=
  sopGo seps text [] 0

/-- The primary separator set of `_split_ingredients`. -/
def isSepMain (c : Char) : Bool :=
  c = ',' || c = '，' || c = '、' || c = ';' || c = '；' || c = '\n' ||
    c = '\r' || c = '\t' || c = '|' || c = '•' || c = '·' || c = '●' || c = '・'

/-- `re.search(r"\s/\s", s)`. -/
def hasSlashDelim : Str → Bool
  | a :: b :: c :: rest =>
    (isSpace a && b = '/' && isSpace c) || hasSlashDelim (b :: c :: rest)
  | _ => false

/-- The per-token edge strip set `" \t\n\r-–—•·●・"`. -/
def TOKEN_EDGE : Str := [' ', '\t', '\n', '\r', '-', '–', '—', '•', '·', '●', '・']

/-- The token normalization of `_split_ingredients`. -/
def normalizeTok (tok : Str) : Str :=
  let s := pyStrip tok
  let s := pyStripChars TOKEN_EDGE s
  let s := pyStripChars EDGE_PUNCT (pyStrip s)
  pyStrip (collapseWs s)

/-- Run counter for `re.findall(r"[A-Za-z0-9]+", blob)`. -/
def wordishGo : Bool → Str → Nat
  | _, [] => 0
  | inRun, c :: rest =>
    if isAsciiAlnum c then
      if inRun then wordishGo true rest else 1 + wordishGo true rest
    else wordishGo false rest

/-- Number of maximal `[A-Za-z0-9]+` runs. -/
def wordishCount (s : Str) : Nat := wordishGo false s

/-- `_split_ingredients(clean_text)`: the token list and the
separator-detection-failed flag. -/
def split_ingredients (clean_text : Str) : List Str × Bool :=
  let t := pyStrip clean_text
  if t.isEmpty then ([], false)
  else
    let tokens := split_outside_parens t isSepMain
    let tokens :=
      match tokens with
      | [tok] =>
        if hasSlashDelim tok then split_outside_parens tok (fun c => c = '/')
        else [tok]
      | _ => tokens
    let normalized := (tokens.map normalizeTok).filter (fun s => !s.isEmpty)
    let sep_failed :=
      match normalized with
      | [blob] => decide (80 ≤ blob.length) || decide (6 ≤ wordishCount blob)
      | _ => false
    (normalized, sep_failed)

/-- `<[^>]{1,80}>` at the current position; returns the full matched text and
the rest. -/
def tryTag : Str → Option (Str × Str)
  | '<' :: t =>
    let inner := t.takeWhile (· ≠ '>')
    if 1 ≤ inner.length ∧ inner.length ≤ 80 then
      match t.drop inner.length with
      | '>' :: rest => some ('<' :: (inner ++ ['>']), rest)
      | _ => none
    else none
  | _ => none

/-- The scan of `_strip_angle_brackets`, collecting removed tags. -/
def stripTagsGo : Nat → Str → Str × List Str
  | 0, s => (s, [])
  | _ + 1, [] => ([], [])
  | fuel + 1, c :: rest =>
    match tryTag (c :: rest) with
    | some (m, after) =>
      let p := stripTagsGo fuel after
      (p.1, m :: p.2)
    | none =>
      let p := stripTagsGo fuel rest
      (c :: p.1, p.2)

/-- `_strip_angle_brackets(s)`. -/
def strip_angle_brackets (s : Str) : Str × List Str :=
  let p := stripTagsGo (s.length + 1) s
  (pyStrip p.1, p.2)

/-- `\([^)]*\)` at the current position; the replacement is empty. -/
def tryParen : Str → Option (Str × Str)
  | '(' :: t =>
    let inner := t.takeWhile (· ≠ ')')
    match t.drop inner.length with
    | ')' :: rest => some ([], rest)
    | _ => none
  | _ => none

/-- `_normalize_lookup_key(text)`. -/
def normalize_lookup_key (text : Str) : Str :=
  let s := pyLower (pyStrip text)
  let s := s.map (fun c => if c = '’' ∨ c = '‘' then '\'' else c)
  let s := s.map (fun c => if c = '（' then '(' else if c = '）' then ')' else c)
  let s := (stripTagsGo (s.length + 1) s).1
  let s := scanSub tryParen (s.length + 1) s
  let s := s.map (fun c => if c = '/' then ' ' else c)
  let s := s.filter (fun c => !(c = '®' || c = '™'))
  let s := s.map (fun c => if c = '.' ∨ c = ':' ∨ c = '：' then ' ' else c)
  pyStrip (collapseWs s)

/-- `re.search(r"[A-Z0-9]", t)`. -/
def hasUpperDigit (s : Str) : Bool :=
  s.any (fun c => ('A' ≤ c && c ≤ 'Z') || ('0' ≤ c && c ≤ '9'))

/-- Search for a hyphen or slash character (the second `re.search` of
`_canonicalize_unknown_english`). -/
def hasDashSlash (s : Str) : Bool := s.any (fun c => c = '-' || c = '/')

/-- `w[:1].upper() + w[1:]`. -/
def capFirst (w : Str) : Str :=
  match w with
  | [] => []
  | c :: r => pyUpperChar c :: r

/-- The accumulator loop of Python `str.split()` (split on whitespace runs,
no empty words). -/
def pySplitGo : Str → Str → List Str
  | buf, [] => if buf.isEmpty then [] else [buf.reverse]
  | buf, c :: rest =>
    if isSpace c then
      if buf.isEmpty then pySplitGo [] rest else buf.reverse :: pySplitGo [] rest
    else pySplitGo (c :: buf) rest

/-- Python `str.split()`. -/
def pySplit (s : Str) : List Str := pySplitGo [] s

/-- `_canonicalize_unknown_english(token)`. -/
def canonicalize_unknown_english (token : Str) : Str :=
  let t := pyStrip token
  if t.isEmpty then []
  else if hasUpperDigit t || hasDashSlash t then capFirst t
  else List.intercalate [' '] ((pySplit t).map capFirst)

/-- `_contains_cjk(s)`. -/
def containsCJK (s : Str) : Bool :=
  s.any (fun c => 0x4e00 ≤ c.toNat && c.toNat ≤ 0x9fff)

/-- Python `repr` of a plain string (quote choice and quote/backslash
escaping; the tags this is applied to contain no non-printable characters). -/
def pyReprStr (s : Str) : Str :=
  let q : Char := if s.contains '\'' && !s.contains '"' then '"' else '\''
  let body := s.foldr (fun c acc =>
    if c = '\\' then '\\' :: '\\' :: acc
    else if c = q then '\\' :: c :: acc
    else c :: acc) []
  q :: (body ++ [q])

/-- Python `repr` of a list of strings. -/
def pyReprList (l : List Str) : Str :=
  '[' :: (List.intercalate (str ", ") (l.map pyReprStr) ++ [']'])
/-- `COMMON_INGREDIENTS_DB` from `services/ingredient_parser.py`, in
source order. -/
def COMMON_INGREDIENTS_DB : List (Str × Str) := [
  (str "water", str "Aqua"),
  (str "aqua", str "Aqua"),
  (str "eau", str "Aqua"),
  (str "purified water", str "Aqua"),
  (str "deionized water", str "Aqua"),
  (str "de-ionized water", str "Aqua"),
  (str "water/aqua/eau", str "Aqua"),
  (str "water aqua eau", str "Aqua"),
  (str "aqua/water/eau", str "Aqua"),
  (str "aqua water eau", str "Aqua"),
  (str "水", str "Aqua"),
  (str "纯水", str "Aqua"),
  (str "去离子水", str "Aqua"),
  (str "纯净水", str "Aqua"),
  (str "alcohol", str "Alcohol"),
  (str "ethanol", str "Alcohol"),
  (str "变性乙醇", str "Alcohol Denat."),
  (str "alcohol denat.", str "Alcohol Denat."),
  (str "alcohol denat", str "Alcohol Denat."),
  (str "denatured alcohol", str "Alcohol Denat."),
  (str "sd alcohol 40-b", str "Alcohol Denat."),
  (str "乙醇", str "Alcohol"),
  (str "异丙醇", str "Isopropyl Alcohol"),
  (str "isopropyl alcohol", str "Isopropyl Alcohol"),
  (str "丙二醇", str "Propylene Glycol"),
  (str "propylene glycol", str "Propylene Glycol"),
  (str "丁二醇", str "Butylene Glycol"),
  (str "butylene glycol", str "Butylene Glycol"),
  (str "戊二醇", str "Pentylene Glycol"),
  (str "pentylene glycol", str "Pentylene Glycol"),
  (str "propanediol", str "Propanediol"),
  (str "1,3-propanediol", str "Propanediol"),
  (str "1,2-hexanediol", str "1,2-Hexanediol"),
  (str "1,2 hexanediol", str "1,2-Hexanediol"),
  (str "hexanediol", str "1,2-Hexanediol"),
  (str "dimethyl isosorbide", str "Dimethyl Isosorbide"),
  (str "乙氧基二甘醇", str "Ethoxydiglycol"),
  (str "ethoxydiglycol", str "Ethoxydiglycol"),
  (str "甘油", str "Glycerin"),
  (str "glycerin", str "Glycerin"),
  (str "glycerol", str "Glycerin"),
  (str "betaine", str "Betaine"),
  (str "甜菜碱", str "Betaine"),
  (str "sodium pca", str "Sodium PCA"),
  (str "zinc pca", str "Zinc PCA"),
  (str "尿素", str "Urea"),
  (str "urea", str "Urea"),
  (str "泛醇", str "Panthenol"),
  (str "panthenol", str "Panthenol"),
  (str "allantoin", str "Allantoin"),
  (str "尿囊素", str "Allantoin"),
  (str "烟酰胺", str "Niacinamide"),
  (str "niacinamide", str "Niacinamide"),
  (str "salicylic acid", str "Salicylic Acid"),
  (str "水杨酸", str "Salicylic Acid"),
  (str "glycolic acid", str "Glycolic Acid"),
  (str "乙醇酸", str "Glycolic Acid"),
  (str "lactic acid", str "Lactic Acid"),
  (str "乳酸", str "Lactic Acid"),
  (str "citric acid", str "Citric Acid"),
  (str "柠檬酸", str "Citric Acid"),
  (str "ascorbic acid", str "Ascorbic Acid"),
  (str "抗坏血酸", str "Ascorbic Acid"),
  (str "tocopherol", str "Tocopherol"),
  (str "retinol", str "Retinol"),
  (str "视黄醇", str "Retinol"),
  (str "retinyl palmitate", str "Retinyl Palmitate"),
  (str "视黄醇棕榈酸酯", str "Retinyl Palmitate"),
  (str "azelaic acid", str "Azelaic Acid"),
  (str "壬二酸", str "Azelaic Acid"),
  (str "tranexamic acid", str "Tranexamic Acid"),
  (str "传明酸", str "Tranexamic Acid"),
  (str "alpha-arbutin", str "Alpha-Arbutin"),
  (str "alpha arbutin", str "Alpha-Arbutin"),
  (str "熊果苷", str "Arbutin"),
  (str "arbutin", str "Arbutin"),
  (str "hyaluronic acid", str "Hyaluronic Acid"),
  (str "透明质酸", str "Hyaluronic Acid"),
  (str "玻尿酸", str "Hyaluronic Acid"),
  (str "sodium hyaluronate", str "Sodium Hyaluronate"),
  (str "透明质酸钠", str "Sodium Hyaluronate"),
  (str "sodium laureth sulfate", str "Sodium Laureth Sulfate"),
  (str "sodium lauryl sulfate", str "Sodium Lauryl Sulfate"),
  (str "椰油酰胺丙基甜菜碱", str "Cocamidopropyl Betaine"),
  (str "cocamidopropyl betaine", str "Cocamidopropyl Betaine"),
  (str "decyl glucoside", str "Decyl Glucoside"),
  (str "coco-glucoside", str "Coco-Glucoside"),
  (str "coco glucoside", str "Coco-Glucoside"),
  (str "sodium cocoyl isethionate", str "Sodium Cocoyl Isethionate"),
  (str "sodium cocoyl glutamate", str "Sodium Cocoyl Glutamate"),
  (str "disodium cocoyl glutamate", str "Disodium Cocoyl Glutamate"),
  (str "sodium lauroyl sarcosinate", str "Sodium Lauroyl Sarcosinate"),
  (str "caprylic/capric triglyceride", str "Caprylic/Capric Triglyceride"),
  (str "caprylic capric triglyceride", str "Caprylic/Capric Triglyceride"),
  (str "角鲨烷", str "Squalane"),
  (str "squalane", str "Squalane"),
  (str "dimethicone", str "Dimethicone"),
  (str "聚二甲基硅氧烷", str "Dimethicone"),
  (str "isopropyl myristate", str "Isopropyl Myristate"),
  (str "isopropyl palmitate", str "Isopropyl Palmitate"),
  (str "cetearyl alcohol", str "Cetearyl Alcohol"),
  (str "cetyl alcohol", str "Cetyl Alcohol"),
  (str "stearyl alcohol", str "Stearyl Alcohol"),
  (str "glyceryl stearate", str "Glyceryl Stearate"),
  (str "peg-100 stearate", str "PEG-100 Stearate"),
  (str "polysorbate 20", str "Polysorbate 20"),
  (str "polysorbate 60", str "Polysorbate 60"),
  (str "lecithin", str "Lecithin"),
  (str "carbomer", str "Carbomer"),
  (str "卡波姆", str "Carbomer"),
  (str "xanthan gum", str "Xanthan Gum"),
  (str "黄原胶", str "Xanthan Gum"),
  (str "hydroxyethylcellulose", str "Hydroxyethylcellulose"),
  (str "羟乙基纤维素", str "Hydroxyethylcellulose"),
  (str "sodium chloride", str "Sodium Chloride"),
  (str "氯化钠", str "Sodium Chloride"),
  (str "acrylates/c10-30 alkyl acrylate crosspolymer", str "Acrylates/C10-30 Alkyl Acrylate Crosspolymer"),
  (str "acrylates c10-30 alkyl acrylate crosspolymer", str "Acrylates/C10-30 Alkyl Acrylate Crosspolymer"),
  (str "disodium edta", str "Disodium EDTA"),
  (str "乙二胺四乙酸二钠", str "Disodium EDTA"),
  (str "phenoxyethanol", str "Phenoxyethanol"),
  (str "苯氧乙醇", str "Phenoxyethanol"),
  (str "ethylhexylglycerin", str "Ethylhexylglycerin"),
  (str "辛甘醇", str "Ethylhexylglycerin"),
  (str "chlorphenesin", str "Chlorphenesin"),
  (str "对羟基苯甲酸甲酯", str "Methylparaben"),
  (str "methylparaben", str "Methylparaben"),
  (str "propylparaben", str "Propylparaben"),
  (str "对羟基苯甲酸丙酯", str "Propylparaben"),
  (str "potassium sorbate", str "Potassium Sorbate"),
  (str "sodium benzoate", str "Sodium Benzoate"),
  (str "dehydroacetic acid", str "Dehydroacetic Acid"),
  (str "benzyl alcohol", str "Benzyl Alcohol"),
  (str "bht", str "BHT"),
  (str "butylated hydroxytoluene", str "BHT"),
  (str "fragrance", str "Parfum"),
  (str "parfum", str "Parfum"),
  (str "香精", str "Parfum"),
  (str "limonene", str "Limonene"),
  (str "linalool", str "Linalool"),
  (str "citral", str "Citral"),
  (str "geraniol", str "Geraniol"),
  (str "coumarin", str "Coumarin"),
  (str "hydroxycitronellal", str "Hydroxycitronellal"),
  (str "citronellol", str "Citronellol"),
  (str "eugenol", str "Eugenol"),
  (str "benzyl salicylate", str "Benzyl Salicylate")]

/-- `ParserEngine.__init__`: normalize the keys, first mapping winning on
normalized-key collisions (`setdefault`). -/
def buildNormMap (raw : List (Str × Str)) : List (Str × Str) :=
  raw.foldl (fun acc kv =>
    let nk := normalize_lookup_key kv.1
    if nk.isEmpty then acc
    else if (acc.find? (fun p => p.1 == nk)).isSome then acc
    else acc ++ [(nk, kv.2)]) []

/-- Association-list lookup (`self._map.get(key)`). -/
def lookupMap (m : List (Str × Str)) (k : Str) : Option Str :=
  (m.find? (fun p => p.1 == k)).map (fun p => p.2)

/-- The normalized synonym dictionary `self._map` of the default
`ParserEngine()`. -/
def parserMap : List (Str × Str) := buildNormMap COMMON_INGREDIENTS_DB

/-- `ParsedIngredient` from `services/ingredient_parser.py`. -/
structure ParsedIngredient where
  order : Nat
  standard_name : Str
  original_text : Str
  uncertain : Bool
  needs_review : Bool
deriving DecidableEq

/-- The state produced by the token loop of `ParserEngine.parse`:
the emitted ingredients, the accumulated unique unrecognized tokens, the
notes and review items contributed by the loop, and the total confidence
penalty.  Confidence is modelled in integer tenths (every confidence
constant of the source is a multiple of 0.1): a `delta` of `-1` is the
`-0.1` penalty of a CJK dictionary miss. -/
structure LoopOut where
  parsed : List ParsedIngredient
  unrec : List Str
  notes : List Str
  reviews : List (Str × Str)
  delta : ℤ
deriving DecidableEq

/-- The token loop of `ParserEngine.parse` (`for tok in tokens`), carrying
the running `order` and the `unrecognized` accumulator. -/
def tokLoop (m : List (Str × Str)) : List Str → Nat → List Str → LoopOut
  | [], _, unrec => ⟨[], unrec, [], [], 0⟩
  | tok₀ :: rest, order, unrec =>
    let sb := strip_angle_brackets tok₀
    let notesTag : List Str :=
      if sb.2.isEmpty then []
      else [str "Removed tag(s) " ++ pyReprList sb.2 ++ str " from '" ++
        tok₀ ++ str "'"]
    let tok := pyStrip sb.1
    if tok.isEmpty then
      let r := tokLoop m rest order unrec
      ⟨r.parsed, r.unrec, notesTag ++ r.notes, r.reviews, r.delta⟩
    else
      let key := normalize_lookup_key tok
      match lookupMap m key with
      | some standard =>
        let notesMap : List Str :=
          if normalize_lookup_key standard ≠ key then
            [str "Mapped '" ++ tok ++ str "' -> '" ++ standard ++ str "'"]
          else []
        let r := tokLoop m rest (order + 1) unrec
        ⟨⟨order, standard, tok, false, false⟩ :: r.parsed, r.unrec,
          notesTag ++ notesMap ++ r.notes, r.reviews, r.delta⟩
      | none =>
        if containsCJK tok then
          let unrec' := if unrec.contains tok then unrec else unrec ++ [tok]
          let r := tokLoop m rest (order + 1) unrec'
          ⟨⟨order, tok, tok, true, true⟩ :: r.parsed, r.unrec,
            notesTag ++ r.notes, (tok, str "No INCI mapping found") :: r.reviews,
            r.delta - 1⟩
        else
          let standard := canonicalize_unknown_english tok
          if standard.isEmpty then
            let r := tokLoop m rest order unrec
            ⟨r.parsed, r.unrec, notesTag ++ r.notes, r.reviews, r.delta⟩
          else
            let unrec' := if unrec.contains tok then unrec else unrec ++ [tok]
            let r := tokLoop m rest (order + 1) unrec'
            ⟨⟨order, standard, tok, true, false⟩ :: r.parsed, r.unrec,
              notesTag ++ r.notes, r.reviews, r.delta⟩

/-- `ParseResult`: the structured content of the record returned by
`ParserEngine.parse` (the source serializes the ingredient, token, note and
review lists to JSON strings; they are kept as lists here).
`parse_confidence` is in integer tenths: `10` is the source's `1.0`, `5` is
`0.5`, and the `NEEDS_REVIEW` threshold `0.6` is `6`. -/
structure ParseResult where
  parse_status : Str
  ingredients : List ParsedIngredient
  inci_list : Str
  unrecognized_tokens : List Str
  normalization_notes : List Str
  parse_confidence : ℤ
  review_items : List (Str × Str)
deriving DecidableEq

/-- The early-return `NEEDS_SOURCE` result of `ParserEngine.parse`. -/
def NEEDS_SOURCE_RESULT : ParseResult :=
  ⟨str "NEEDS_SOURCE", [], [], [], [], 0, []⟩

/-- `ParserEngine.parse(raw_ingredient_text)` with the default dictionary. -/
def parse (raw_ingredient_text : Str) : ParseResult :=
  let raw := coerce_text raw_ingredient_text
  let clean₀ := preprocess raw
  let cn := clean_noise clean₀
  if looks_invalid_blob cn.1 then NEEDS_SOURCE_RESULT
  else
    let si := split_ingredients cn.1
    if si.1.isEmpty then NEEDS_SOURCE_RESULT
    else
      let confidence₀ : ℤ := if si.2 then 10 - 5 else 10
      let r := tokLoop parserMap si.1 1 []
      let confidence := max 0 (min 10 (confidence₀ + r.delta))
      let status := if confidence < 6 then str "NEEDS_REVIEW" else str "OK"
      let inci := List.intercalate (str "; ")
        ((r.parsed.filter (fun p => !p.standard_name.isEmpty)).map
          (fun p => p.standard_name))
      ⟨status, r.parsed, inci, r.unrec, cn.2 ++ r.notes, confidence, r.reviews⟩

/- ## Toolbox lemmas for the parser proofs -/

lemma char_toNat_ofNat (n : Nat) (h : n.isValidChar) :
    (Char.ofNat n).toNat = n := by
  simp [Char.ofNat, Char.toNat, h, Char.ofNatAux, UInt32.toNat]

lemma char_ofNat_toNat (c : Char) : Char.ofNat c.toNat = c := by
  have h : c.val.toNat.isValidChar := c.valid
  simp [Char.ofNat, Char.toNat, h, Char.ofNatAux]
  apply Char.ext
  apply UInt32.ext
  simp [UInt32.toNat]

lemma pyLowerChar_pyUpperChar (c : Char) :
    pyLowerChar (pyUpperChar c) = pyLowerChar c := by
  unfold pyUpperChar
  by_cases h : 97 ≤ c.toNat ∧ c.toNat ≤ 122
  · rw [if_pos h]
    have hv : (c.toNat - 32).isValidChar := Or.inl (by omega)
    have ht : (Char.ofNat (c.toNat - 32)).toNat = c.toNat - 32 :=
      char_toNat_ofNat _ hv
    unfold pyLowerChar
    rw [if_pos (by omega : 65 ≤ (Char.ofNat (c.toNat - 32)).toNat ∧
      (Char.ofNat (c.toNat - 32)).toNat ≤ 90), ht,
      if_neg (by omega : ¬(65 ≤ c.toNat ∧ c.toNat ≤ 90))]
    have : c.toNat - 32 + 32 = c.toNat := by omega
    rw [this, char_ofNat_toNat]
  · rw [if_neg h]

lemma isSpace_false_of_toNat (c : Char)
    (h : c.toNat ≠ 32 ∧ c.toNat ≠ 9 ∧ c.toNat ≠ 10 ∧ c.toNat ≠ 13 ∧
      c.toNat ≠ 11 ∧ c.toNat ≠ 12) : isSpace c = false := by
  simp only [isSpace, Bool.or_eq_false_iff, decide_eq_false_iff_not]
  refine ⟨⟨⟨⟨⟨?_, ?_⟩, ?_⟩, ?_⟩, ?_⟩, ?_⟩ <;> intro he <;> subst he <;>
    simp_all

lemma isSpace_pyLowerChar (c : Char) : isSpace (pyLowerChar c) = isSpace c := by
  unfold pyLowerChar
  by_cases h : 65 ≤ c.toNat ∧ c.toNat ≤ 90
  · rw [if_pos h]
    have hv : (c.toNat + 32).isValidChar := Or.inl (by omega)
    have ht : (Char.ofNat (c.toNat + 32)).toNat = c.toNat + 32 :=
      char_toNat_ofNat _ hv
    rw [isSpace_false_of_toNat _ (by omega), isSpace_false_of_toNat _ (by omega)]
  · rw [if_neg h]

lemma dropWhile_head?_false (p : Char → Bool) :
    ∀ (l : Str) (c : Char), (l.dropWhile p).head? = some c → p c = false := by
  intro l
  induction l with
  | nil => intro c h; simp [List.dropWhile] at h
  | cons d rest ih =>
    intro c h
    by_cases hd : p d
    · rw [List.dropWhile_cons, if_pos hd] at h
      exact ih c h
    · rw [List.dropWhile_cons, if_neg hd] at h
      simp only [List.head?_cons, Option.some.injEq] at h
      subst h
      simpa using hd

lemma dropWhile_eq_self_of (p : Char → Bool) (l : Str)
    (h : ∀ c, l.head? = some c → p c = false) : l.dropWhile p = l := by
  cases l with
  | nil => rfl
  | cons c rest => simp [List.dropWhile_cons, h c rfl]

lemma prefix_head? {l₁ l₂ : Str} (h : l₁ <+: l₂) (hne : l₁ ≠ []) :
    l₁.head? = l₂.head? := by
  obtain ⟨t, rfl⟩ := h
  cases l₁ with
  | nil => exact absurd rfl hne
  | cons c r => rfl

lemma rstrip_prefix (p : Char → Bool) (a : Str) :
    (a.reverse.dropWhile p).reverse <+: a := by
  have hsuff : a.reverse.dropWhile p <:+ a.reverse := List.dropWhile_suffix p
  have := List.reverse_prefix.mpr hsuff
  rwa [List.reverse_reverse] at this

lemma pyStrip_head?_false (s : Str) :
    ∀ c, (pyStrip s).head? = some c → isSpace c = false := by
  intro c h
  have hpre : pyStrip s <+: s.dropWhile isSpace := rstrip_prefix isSpace _
  have hne : pyStrip s ≠ [] := by
    intro he
    rw [he] at h
    simp at h
  rw [prefix_head? hpre hne] at h
  exact dropWhile_head?_false isSpace _ c h

lemma pyStrip_reverse_head?_false (s : Str) :
    ∀ c, (pyStrip s).reverse.head? = some c → isSpace c = false := by
  intro c h
  unfold pyStrip at h
  rw [List.reverse_reverse] at h
  exact dropWhile_head?_false isSpace _ c h

lemma pyStrip_eq_self (l : Str)
    (h₁ : ∀ c, l.head? = some c → isSpace c = false)
    (h₂ : ∀ c, l.reverse.head? = some c → isSpace c = false) :
    pyStrip l = l := by
  unfold pyStrip
  rw [dropWhile_eq_self_of _ _ h₁, dropWhile_eq_self_of _ _ h₂,
    List.reverse_reverse]

lemma pyStrip_idem (s : Str) : pyStrip (pyStrip s) = pyStrip s :=
  pyStrip_eq_self _ (pyStrip_head?_false s) (pyStrip_reverse_head?_false s)

lemma mem_of_pyStrip {c : Char} {s : Str} (h : c ∈ pyStrip s) : c ∈ s := by
  unfold pyStrip at h
  rw [List.mem_reverse] at h
  have h₂ := (List.dropWhile_suffix isSpace).sublist.mem h
  rw [List.mem_reverse] at h₂
  exact (List.dropWhile_suffix isSpace).sublist.mem h₂

lemma pyStripChars_head?_false (cs : Str) (s : Str) :
    ∀ c, (pyStripChars cs s).head? = some c → cs.contains c = false := by
  intro c h
  have hpre : pyStripChars cs s <+: s.dropWhile (cs.contains ·) :=
    rstrip_prefix _ _
  have hne : pyStripChars cs s ≠ [] := by
    intro he
    rw [he] at h
    simp at h
  rw [prefix_head? hpre hne] at h
  exact dropWhile_head?_false _ _ c h

lemma pyStripChars_reverse_head?_false (cs : Str) (s : Str) :
    ∀ c, (pyStripChars cs s).reverse.head? = some c → cs.contains c = false := by
  intro c h
  unfold pyStripChars at h
  rw [List.reverse_reverse] at h
  exact dropWhile_head?_false _ _ c h

lemma mem_of_pyStripChars {c : Char} {cs s : Str}
    (h : c ∈ pyStripChars cs s) : c ∈ s := by
  unfold pyStripChars at h
  rw [List.mem_reverse] at h
  have h₂ := (List.dropWhile_suffix (cs.contains ·)).sublist.mem h
  rw [List.mem_reverse] at h₂
  exact (List.dropWhile_suffix (cs.contains ·)).sublist.mem h₂

lemma collapseGo_space_mem :
    ∀ (b : Bool) (s : Str) (c : Char), c ∈ collapseGo b s →
      isSpace c = true → c = ' ' := by
  intro b s
  induction s generalizing b with
  | nil => intro c h; simp [collapseGo] at h
  | cons d rest ih =>
    intro c h hsp
    unfold collapseGo at h
    by_cases hd : isSpace d
    · rw [if_pos hd] at h
      cases b with
      | true =>
        rw [if_pos rfl] at h
        exact ih true c h hsp
      | false =>
        rw [if_neg (by simp)] at h
        rcases List.mem_cons.mp h with rfl | h
        · rfl
        · exact ih true c h hsp
    · rw [if_neg hd] at h
      rcases List.mem_cons.mp h with rfl | h
      · exact absurd hsp (by simpa using hd)
      · exact ih false c h hsp

lemma head?_mem {l : Str} {c : Char} (h : l.head? = some c) : c ∈ l := by
  cases l with
  | nil => simp at h
  | cons d t =>
    simp only [List.head?_cons, Option.some.injEq] at h
    subst h
    exact List.mem_cons_self _ _

lemma cleanFinal_stripped (x : Str) : pyStrip (cleanFinal x) = cleanFinal x := by
  apply pyStrip_eq_self
  · intro c hc
    have hmem : c ∈ collapseWs x :=
      mem_of_pyStrip (mem_of_pyStrip (mem_of_pyStripChars (head?_mem hc)))
    have hne : EDGE_PUNCT.contains c = false :=
      pyStripChars_head?_false EDGE_PUNCT _ c hc
    by_contra hsp
    have hsp' : isSpace c = true := by
      cases hb : isSpace c
      · exact absurd hb hsp
      · rfl
    have := collapseGo_space_mem false x c hmem hsp'
    subst this
    simp [EDGE_PUNCT, str, List.contains] at hne
  · intro c hc
    have hmem : c ∈ collapseWs x := by
      have h₁ := head?_mem hc
      rw [List.mem_reverse] at h₁
      exact mem_of_pyStrip (mem_of_pyStrip (mem_of_pyStripChars h₁))
    have hne : EDGE_PUNCT.contains c = false :=
      pyStripChars_reverse_head?_false EDGE_PUNCT _ c hc
    by_contra hsp
    have hsp' : isSpace c = true := by
      cases hb : isSpace c
      · exact absurd hb hsp
      · rfl
    have := collapseGo_space_mem false x c hmem hsp'
    subst this
    simp [EDGE_PUNCT, str, List.contains] at hne

lemma clean_noise_eq (text : Str) :
    clean_noise text = if (pyStrip text).isEmpty then ([], [])
      else (cleanFinal (cleanNoiseCore (pyStrip text)).1,
            (cleanNoiseCore (pyStrip text)).2) := rfl

lemma clean_noise_stripped (text : Str) :
    pyStrip (clean_noise text).1 = (clean_noise text).1 := by
  rw [clean_noise_eq]
  by_cases h0 : (pyStrip text).isEmpty
  · rw [if_pos h0]
    rfl
  · rw [if_neg h0]
    generalize (cleanNoiseCore (pyStrip text)).1 = x
    exact cleanFinal_stripped x

lemma intercalate_single (sep a : Str) : List.intercalate sep [a] = a := by
  simp [List.intercalate]

lemma intercalate_cons₂ (sep a b : Str) (t : List Str) :
    List.intercalate sep (a :: b :: t) = a ++ sep ++ List.intercalate sep (b :: t) := by
  simp [List.intercalate]

lemma pySplitGo_word : ∀ (w buf s : Str), (∀ c ∈ w, isSpace c = false) →
    pySplitGo buf (w ++ s) = pySplitGo (w.reverse ++ buf) s := by
  intro w
  induction w with
  | nil => intro buf s _; simp
  | cons c cs ih =>
    intro buf s hw
    have hc : isSpace c = false := hw c (List.mem_cons_self _ _)
    have hstep : pySplitGo buf ((c :: cs) ++ s)
        = if isSpace c then
            (if buf.isEmpty then pySplitGo [] (cs ++ s)
             else buf.reverse :: pySplitGo [] (cs ++ s))
          else pySplitGo (c :: buf) (cs ++ s) := rfl
    rw [hstep, if_neg (by simp [hc]), ih (c :: buf) s
      (fun d hd => hw d (List.mem_cons_of_mem _ hd))]
    simp [List.append_assoc]

lemma pySplit_intercalate : ∀ ws : List Str,
    (∀ w ∈ ws, w ≠ [] ∧ ∀ c ∈ w, isSpace c = false) →
    pySplit (List.intercalate [' '] ws) = ws := by
  intro ws
  induction ws with
  | nil => intro _; rfl
  | cons w ws' ih =>
    intro h
    obtain ⟨hne, hsf⟩ := h w (List.mem_cons_self _ _)
    cases ws' with
    | nil =>
      rw [intercalate_single]
      show pySplitGo [] w = [w]
      have h₁ := pySplitGo_word w [] [] hsf
      rw [List.append_nil, List.append_nil] at h₁
      rw [h₁]
      have hbe : w.reverse.isEmpty = false := by
        cases hw : w with
        | nil => exact absurd hw hne
        | cons a t => simp [hw]
      show (if w.reverse.isEmpty then ([] : List Str) else [w.reverse.reverse]) = [w]
      rw [hbe]
      simp
    | cons w₂ ws'' =>
      rw [intercalate_cons₂, List.append_assoc]
      show pySplitGo [] (w ++ (' ' :: List.intercalate [' '] (w₂ :: ws''))) = _
      rw [pySplitGo_word w [] _ hsf, List.append_nil]
      have hbe : w.reverse.isEmpty = false := by
        cases hw : w with
        | nil => exact absurd hw hne
        | cons a t => simp [hw]
      have hstep : pySplitGo w.reverse (' ' :: List.intercalate [' '] (w₂ :: ws''))
          = if isSpace ' ' then
              (if w.reverse.isEmpty then pySplitGo [] (List.intercalate [' '] (w₂ :: ws''))
               else w.reverse.reverse :: pySplitGo [] (List.intercalate [' '] (w₂ :: ws'')))
            else pySplitGo (' ' :: w.reverse) (List.intercalate [' '] (w₂ :: ws'')) := rfl
      rw [hstep, if_pos (by decide), hbe]
      show w.reverse.reverse :: pySplit (List.intercalate [' '] (w₂ :: ws'')) = _
      rw [List.reverse_reverse, ih (fun x hx => h x (List.mem_cons_of_mem _ hx))]

lemma pySplitGo_words_ok : ∀ (s buf : Str), (∀ c ∈ buf, isSpace c = false) →
    ∀ w ∈ pySplitGo buf s, w ≠ [] ∧ ∀ c ∈ w, isSpace c = false := by
  intro s
  induction s with
  | nil =>
    intro buf hbuf w hw
    by_cases hb : buf.isEmpty
    · have : pySplitGo buf [] = [] := by
        show (if buf.isEmpty then ([] : List Str) else [buf.reverse]) = []
        simp [hb]
      rw [this] at hw
      simp at hw
    · have : pySplitGo buf [] = [buf.reverse] := by
        show (if buf.isEmpty then ([] : List Str) else [buf.reverse]) = [buf.reverse]
        simp [hb]
      rw [this] at hw
      rcases List.mem_singleton.mp hw with rfl
      constructor
      · intro he
        apply hb
        have : buf = [] := by simpa using congrArg List.reverse he
        simp [this]
      · intro c hc
        exact hbuf c (List.mem_reverse.mp hc)
  | cons d rest ih =>
    intro buf hbuf w hw
    have hstep : pySplitGo buf (d :: rest)
        = if isSpace d then
            (if buf.isEmpty then pySplitGo [] rest
             else buf.reverse :: pySplitGo [] rest)
          else pySplitGo (d :: buf) rest := rfl
    rw [hstep] at hw
    by_cases hd : isSpace d
    · rw [if_pos hd] at hw
      by_cases hb : buf.isEmpty
      · rw [if_pos hb] at hw
        exact ih [] (by simp) w hw
      · rw [if_neg hb] at hw
        rcases List.mem_cons.mp hw with rfl | hw
        · constructor
          · intro he
            apply hb
            have : buf = [] := by simpa using congrArg List.reverse he
            simp [this]
          · intro c hc
            exact hbuf c (List.mem_reverse.mp hc)
        · exact ih [] (by simp) w hw
    · rw [if_neg hd] at hw
      refine ih (d :: buf) ?_ w hw
      intro c hc
      rcases List.mem_cons.mp hc with rfl | hc
      · simpa using hd
      · exact hbuf c hc

lemma pySplit_words_ok (s : Str) :
    ∀ w ∈ pySplit s, w ≠ [] ∧ ∀ c ∈ w, isSpace c = false :=
  pySplitGo_words_ok s [] (by simp)

lemma pySplitGo_lower : ∀ (s buf : Str),
    pySplitGo (pyLower buf) (pyLower s) = (pySplitGo buf s).map pyLower := by
  intro s
  induction s with
  | nil =>
    intro buf
    cases buf with
    | nil => rfl
    | cons c t =>
      show (if (pyLower (c :: t)).isEmpty then ([] : List Str)
          else [(pyLower (c :: t)).reverse])
        = ((if (c :: t).isEmpty then ([] : List Str) else [(c :: t).reverse]).map pyLower)
      simp [pyLower]
  | cons d rest ih =>
    intro buf
    show pySplitGo (pyLower buf) (pyLowerChar d :: pyLower rest) = _
    have hstepL : pySplitGo (pyLower buf) (pyLowerChar d :: pyLower rest)
        = if isSpace (pyLowerChar d) then
            (if (pyLower buf).isEmpty then pySplitGo [] (pyLower rest)
             else (pyLower buf).reverse :: pySplitGo [] (pyLower rest))
          else pySplitGo (pyLowerChar d :: pyLower buf) (pyLower rest) := rfl
    have hstepR : pySplitGo buf (d :: rest)
        = if isSpace d then
            (if buf.isEmpty then pySplitGo [] rest
             else buf.reverse :: pySplitGo [] rest)
          else pySplitGo (d :: buf) rest := rfl
    rw [hstepL, hstepR, isSpace_pyLowerChar]
    by_cases hd : isSpace d
    · rw [if_pos hd, if_pos hd]
      have hbe : (pyLower buf).isEmpty = buf.isEmpty := by
        cases buf <;> simp [pyLower]
      by_cases hb : buf.isEmpty
      · rw [hbe, if_pos hb, if_pos hb]
        exact ih []
      · rw [hbe, if_neg hb, if_neg hb]
        have h0 := ih []
        have h₁ : List.reverse (pyLower buf) = pyLower (List.reverse buf) := by
          simp [pyLower]
        rw [List.map_cons, ← h0, h₁]
        rfl
    · rw [if_neg hd, if_neg hd]
      have := ih (d :: buf)
      simpa [pyLower] using this

lemma pySplit_lower (s : Str) : pySplit (pyLower s) = (pySplit s).map pyLower := by
  have := pySplitGo_lower s []
  simpa [pySplit, pyLower] using this

lemma pyLower_intercalate_space : ∀ ws : List Str,
    pyLower (List.intercalate [' '] ws) = List.intercalate [' '] (ws.map pyLower) := by
  intro ws
  induction ws with
  | nil => rfl
  | cons w ws' ih =>
    cases ws' with
    | nil => rw [List.map_cons, List.map_nil, intercalate_single, intercalate_single]
    | cons w₂ ws'' =>
      rw [List.map_cons, List.map_cons, intercalate_cons₂, intercalate_cons₂,
        ← List.map_cons, ← ih]
      unfold pyLower
      rw [List.map_append, List.map_append]
      have h₁ : List.map pyLowerChar [' '] = [' '] := by decide
      rw [h₁]

lemma pyLower_capFirst (w : Str) : pyLower (capFirst w) = pyLower w := by
  cases w with
  | nil => rfl
  | cons c t =>
    show pyLower (pyUpperChar c :: t) = _
    unfold pyLower
    rw [List.map_cons, List.map_cons, pyLowerChar_pyUpperChar]

lemma canonicalize_caseWs (tok : Str) (hst : pyStrip tok = tok)
    (hne : tok ≠ []) :
    pySplit (pyLower (canonicalize_unknown_english tok))
      = pySplit (pyLower tok) := by
  have hbe : tok.isEmpty = false := by
    cases hw : tok with
    | nil => exact absurd hw hne
    | cons a t => simp [hw]
  simp only [canonicalize_unknown_english, hst, hbe, Bool.false_eq_true,
    if_false]
  by_cases hud : (hasUpperDigit tok || hasDashSlash tok) = true
  · rw [if_pos hud, pyLower_capFirst]
  · rw [if_neg hud]
    rw [pyLower_intercalate_space, List.map_map]
    have hmapeq : (pySplit tok).map (pyLower ∘ capFirst) = (pySplit tok).map pyLower := by
      apply List.map_congr_left
      intro w _
      exact pyLower_capFirst w
    rw [hmapeq]
    rw [pySplit_lower]
    apply pySplit_intercalate
    intro w hw
    rw [List.mem_map] at hw
    obtain ⟨w₀, hw₀, rfl⟩ := hw
    obtain ⟨hne₀, hsf₀⟩ := pySplit_words_ok tok w₀ hw₀
    constructor
    · intro he
      apply hne₀
      cases hw : w₀ with
      | nil => rfl
      | cons a t => rw [hw] at he; simp [pyLower] at he
    · intro c hc
      rw [pyLower, List.mem_map] at hc
      obtain ⟨c₀, hc₀, rfl⟩ := hc
      rw [isSpace_pyLowerChar]
      exact hsf₀ c₀ hc₀

lemma tokLoop_orders (m : List (Str × Str)) :
    ∀ (toks : List Str) (order : Nat) (unrec : List Str),
      (tokLoop m toks order unrec).parsed.map (fun p => p.order)
        = List.range' order (tokLoop m toks order unrec).parsed.length := by
  intro toks
  induction toks with
  | nil => intro order unrec; rfl
  | cons tok₀ rest ih =>
    intro order unrec
    simp only [tokLoop]
    split
    · exact ih order unrec
    · split
      · simp only [List.map_cons, List.length_cons, List.range'_succ]
        exact congrArg (order :: ·) (ih (order + 1) unrec)
      · split
        · simp only [List.map_cons, List.length_cons, List.range'_succ]
          exact congrArg (order :: ·) (ih (order + 1) _)
        · split
          · exact ih order unrec
          · simp only [List.map_cons, List.length_cons, List.range'_succ]
            exact congrArg (order :: ·) (ih (order + 1) _)

lemma tokLoop_flags (m : List (Str × Str)) :
    ∀ (toks : List Str) (order : Nat) (unrec : List Str),
      ∀ p ∈ (tokLoop m toks order unrec).parsed,
        (p.needs_review = true → p.uncertain = true) ∧
        ((lookupMap m (normalize_lookup_key p.original_text)).isSome →
          p.uncertain = false ∧ p.needs_review = false) := by
  intro toks
  induction toks with
  | nil => intro order unrec p hp; simp [tokLoop] at hp
  | cons tok₀ rest ih =>
    intro order unrec p hp
    simp only [tokLoop] at hp
    split at hp
    · exact ih order unrec p hp
    · split at hp
      · rename_i std heq
        rcases List.mem_cons.mp hp with rfl | hp
        · refine ⟨fun h => absurd h (by simp), fun _ => ⟨rfl, rfl⟩⟩
        · exact ih _ _ p hp
      · rename_i heq
        split at hp
        · rcases List.mem_cons.mp hp with rfl | hp
          · refine ⟨fun _ => rfl, fun hs => ?_⟩
            rw [show (ParsedIngredient.mk order _ _ true true).original_text
                = _ from rfl, heq] at hs
            simp at hs
          · exact ih _ _ p hp
        · split at hp
          · exact ih order unrec p hp
          · rcases List.mem_cons.mp hp with rfl | hp
            · refine ⟨fun h => absurd h (by simp), fun hs => ?_⟩
              rw [show (ParsedIngredient.mk order _ _ true false).original_text
                  = _ from rfl, heq] at hs
              simp at hs
            · exact ih _ _ p hp

lemma tokLoop_standard (m : List (Str × Str)) :
    ∀ (toks : List Str) (order : Nat) (unrec : List Str),
      ∀ p ∈ (tokLoop m toks order unrec).parsed,
        lookupMap m (normalize_lookup_key p.original_text) = some p.standard_name ∨
        pySplit (pyLower p.standard_name) = pySplit (pyLower p.original_text) := by
  intro toks
  induction toks with
  | nil => intro order unrec p hp; simp [tokLoop] at hp
  | cons tok₀ rest ih =>
    intro order unrec p hp
    simp only [tokLoop] at hp
    generalize hy : (strip_angle_brackets tok₀).1 = y at hp
    split at hp
    · exact ih order unrec p hp
    · rename_i hne
      split at hp
      · rename_i std heq
        rcases List.mem_cons.mp hp with rfl | hp
        · exact Or.inl heq
        · exact ih _ _ p hp
      · rename_i heq
        split at hp
        · rcases List.mem_cons.mp hp with rfl | hp
          · exact Or.inr rfl
          · exact ih _ _ p hp
        · split at hp
          · exact ih order unrec p hp
          · rcases List.mem_cons.mp hp with rfl | hp
            · refine Or.inr (canonicalize_caseWs (pyStrip y) (pyStrip_idem y) ?_)
              intro he
              apply hne
              rw [he]
              rfl
            · exact ih _ _ p hp

/-- Claim C6: the `order` values of the ingredients emitted by
`ParserEngine.parse` are exactly the consecutive sequence `1, 2, 3, …` with
no gaps — each emitted ingredient's order is its 1-based position among the
emitted ingredients (tokens that vanish after tag stripping consume no
order number, since they emit nothing). -/
theorem parse_order_values_consecutive (raw : Str) :
    (parse raw).ingredients.map (fun p => p.order)
      = List.range' 1 (parse raw).ingredients.length := by
  simp only [parse]
  split
  · rfl
  · split
    · rfl
    · generalize (split_ingredients (clean_noise (preprocess (coerce_text raw))).1).1 = toks
      exact tokLoop_orders parserMap toks 1 []

/-- Claim C10: in every `ParserEngine.parse` result, `needs_review = true`
implies `uncertain = true`, and every ingredient whose token hits the
synonym dictionary is emitted with `uncertain = false` and
`needs_review = false`. -/
theorem parse_review_flag_invariant (raw : Str) :
    ∀ p ∈ (parse raw).ingredients,
      (p.needs_review = true → p.uncertain = true) ∧
      ((lookupMap parserMap (normalize_lookup_key p.original_text)).isSome →
        p.uncertain = false ∧ p.needs_review = false) := by
  simp only [parse]
  split
  · intro p hp; simp [NEEDS_SOURCE_RESULT] at hp
  · split
    · intro p hp; simp [NEEDS_SOURCE_RESULT] at hp
    · generalize (split_ingredients (clean_noise (preprocess (coerce_text raw))).1).1 = toks
      exact tokLoop_flags parserMap toks 1 []

/-- Witness for C10: the dictionary-hit ingredient of `parse "water"` carries
neither flag. -/
theorem parse_review_flag_invariant_witness :
    (⟨1, str "Aqua", str "water", false, false⟩ : ParsedIngredient).uncertain
        = false ∧
    (⟨1, str "Aqua", str "water", false, false⟩ : ParsedIngredient).needs_review
        = false :=
  (parse_review_flag_invariant (str "water")
    ⟨1, str "Aqua", str "water", false, false⟩ (by decide)).2 (by decide)

/-- Counterexample for C2 as stated: `parse "a <x> b"` emits the standard
name `"A B"` for the token `"a  b"` (double space after tag removal).  That
standard name is not a dictionary value for the token's lookup key, and it
is not the original text merely case-normalized — title-casing also
collapsed the interior whitespace. -/
theorem parse_standard_name_counterexample :
    (parse (str "a <x> b")).ingredients
      = [⟨1, str "A B", str "a  b", true, false⟩] ∧
    lookupMap parserMap (normalize_lookup_key (str "a  b")) = none ∧
    ¬ pyLower (str "A B") = pyLower (str "a  b") :=
  ⟨by decide, by decide, by decide⟩

/-- Claim C2 (amended): every `standard_name` emitted by
`ParserEngine.parse` is either the synonym dictionary's canonical value for
the token's normalized lookup key, or the token's own `original_text` with
at most letter-case changes and whitespace runs collapsed (CJK tokens are
echoed verbatim, which the second disjunct subsumes); `parse` never emits a
name not derivable from the dictionary or the corresponding token. -/
theorem parse_standard_name_provenance (raw : Str) :
    ∀ p ∈ (parse raw).ingredients,
      lookupMap parserMap (normalize_lookup_key p.original_text)
          = some p.standard_name ∨
      pySplit (pyLower p.standard_name) = pySplit (pyLower p.original_text) := by
  simp only [parse]
  split
  · intro p hp; simp [NEEDS_SOURCE_RESULT] at hp
  · split
    · intro p hp; simp [NEEDS_SOURCE_RESULT] at hp
    · generalize (split_ingredients (clean_noise (preprocess (coerce_text raw))).1).1 = toks
      exact tokLoop_standard parserMap toks 1 []

/-- Witness for C2: the provenance disjunction at the dictionary-hit
ingredient of `parse "water"`. -/
theorem parse_standard_name_provenance_witness :
    lookupMap parserMap (normalize_lookup_key (str "water")) = some (str "Aqua") ∨
    pySplit (pyLower (str "Aqua")) = pySplit (pyLower (str "water")) :=
  parse_standard_name_provenance (str "water")
    ⟨1, str "Aqua", str "water", false, false⟩ (by decide)

/-- Claim C7: `ParserEngine.parse` returns the `NEEDS_SOURCE` early result
whenever the cleaned text is empty, equals (case-insensitively) one of the
exact invalid markers, or contains an invalid English phrase
(case-insensitively) or an invalid Chinese phrase; in particular
`parse "See image"` returns it. -/
theorem parse_invalid_blob_shortcircuit :
    (∀ raw : Str,
      ((clean_noise (preprocess (coerce_text raw))).1 = [] ∨
       INVALID_EXACT.contains
         (pyLower (clean_noise (preprocess (coerce_text raw))).1) = true ∨
       (∃ p ∈ INVALID_PHRASES_EN,
         containsSub (pyLower (clean_noise (preprocess (coerce_text raw))).1) p
           = true) ∨
       (∃ p ∈ INVALID_PHRASES_ZH,
         containsSub (clean_noise (preprocess (coerce_text raw))).1 p = true)) →
      parse raw = NEEDS_SOURCE_RESULT) ∧
    parse (str "See image") = NEEDS_SOURCE_RESULT := by
  constructor
  · intro raw h
    have hstrip := clean_noise_stripped (preprocess (coerce_text raw))
    have hblob : looks_invalid_blob
        (clean_noise (preprocess (coerce_text raw))).1 = true := by
      generalize hc : (clean_noise (preprocess (coerce_text raw))).1 = clean
        at h hstrip
      simp only [looks_invalid_blob, hstrip]
      split_ifs with h1 h2 h3 h4 <;> try rfl
      exfalso
      rcases h with h | h | h | h
      · rw [h] at h1; simp at h1
      · exact h2 h
      · rw [List.any_eq_true] at h3
        exact h3 h
      · rw [List.any_eq_true] at h4
        exact h4 h
    simp only [parse]
    rw [if_pos hblob]
  · decide

/-- Witness for C7: the universal part applied at the concrete invalid
input `"See image"`. -/
theorem parse_invalid_blob_shortcircuit_witness :
    parse (str "See image") = NEEDS_SOURCE_RESULT :=
  (parse_invalid_blob_shortcircuit).1 (str "See image") (by decide)

/-- Claim C8: when `_split_ingredients` returns exactly one non-empty token,
the separator-failure flag is exactly "length of the blob is at least 80, or
it holds at least 6 alphanumeric words"; `parse` of the six-word blob
`"Aqua Glycerin Niacinamide Zinc PCA Phenoxyethanol"` returns status
`NEEDS_REVIEW` with confidence 5 tenths (0.5); and whenever `parse` does not
take the `NEEDS_SOURCE` early exit, the status is `NEEDS_REVIEW` exactly when
the clamped confidence is below 6 tenths (0.6). -/
theorem parse_separator_failure_heuristic :
    (∀ clean_text blob : Str,
      (split_ingredients clean_text).1 = [blob] →
      (split_ingredients clean_text).2 =
        (decide (80 ≤ blob.length) || decide (6 ≤ wordishCount blob))) ∧
    ((parse (str "Aqua Glycerin Niacinamide Zinc PCA Phenoxyethanol")).parse_status
        = str "NEEDS_REVIEW" ∧
     (parse (str "Aqua Glycerin Niacinamide Zinc PCA Phenoxyethanol")).parse_confidence
        = 5) ∧
    (∀ raw : Str, parse raw ≠ NEEDS_SOURCE_RESULT →
      ((parse raw).parse_status = str "NEEDS_REVIEW" ↔
        (parse raw).parse_confidence < 6)) := by
  refine ⟨?_, ⟨by decide, by decide⟩, ?_⟩
  · intro clean_text blob h
    simp only [split_ingredients] at h ⊢
    split_ifs at h ⊢ with hemp
    dsimp only at h ⊢
    rw [h]
  · intro raw hne
    simp only [parse] at hne ⊢
    by_cases h1 : looks_invalid_blob
        (clean_noise (preprocess (coerce_text raw))).1 = true
    · rw [if_pos h1] at hne
      exact absurd rfl hne
    · rw [if_neg h1] at hne ⊢
      generalize split_ingredients
        (clean_noise (preprocess (coerce_text raw))).1 = si at hne ⊢
      by_cases h2 : si.1.isEmpty
      · rw [if_pos h2] at hne
        exact absurd rfl hne
      · rw [if_neg h2]
        generalize (max 0 (min 10
          ((if si.2 = true then 10 - 5 else 10) +
            (tokLoop parserMap si.1 1 []).delta)) : ℤ) = conf
        dsimp only
        constructor
        · intro hs
          by_contra hlt
          rw [if_neg hlt] at hs
          exact absurd hs (by decide)
        · intro hlt
          rw [if_pos hlt]

/-- Witness for C8: the separator-flag equation at the one-token input
`"abc"`, and the status/confidence equivalence at `"water"`. -/
theorem parse_separator_failure_heuristic_witness :
    (split_ingredients (str "abc")).2 =
      (decide (80 ≤ (str "abc").length) ||
        decide (6 ≤ wordishCount (str "abc"))) ∧
    ((parse (str "water")).parse_status = str "NEEDS_REVIEW" ↔
      (parse (str "water")).parse_confidence < 6) :=
  ⟨parse_separator_failure_heuristic.1 (str "abc") (str "abc") (by decide),
   parse_separator_failure_heuristic.2.2 (str "water") (by decide)⟩

/-- Claim C3 (refuted; the code diverges from the spec here): `clean_noise`
is not idempotent.  On the input `"x and."` the first pass removes only the
trailing period (edge punctuation is stripped after the trailing-conjunction
rule has already run), yielding `"x and"` with no notes; a second pass on
that output then removes the now-trailing conjunction, yielding `"x"` with a
new `"Removed truncation ending"` note, so the second pass both changes the
text and emits a note. -/
theorem clean_noise_not_idempotent_at_x_and :
    clean_noise (str "x and.") = (str "x and", []) ∧
    clean_noise (clean_noise (str "x and.")).1 =
      (str "x", [str "Removed truncation ending"]) ∧
    (clean_noise (clean_noise (str "x and.")).1).1 ≠
      (clean_noise (str "x and.")).1 ∧
    (clean_noise (clean_noise (str "x and.")).1).2 ≠ [] :=
  ⟨by decide, by decide, by decide, by decide⟩

/-- Counterexample for C5 as stated: the empty string has length below 10 yet
scores `0.0`, not the claimed fixed `0.1` (the empty check precedes the
short-text check); and `"=> => =>"` is classified as script/JSON yet scores
`0.1`, not the claimed fixed `0.05` (the short-text check precedes the
script check). -/
theorem feature_score_fixed_values_counterexample :
    (feature_score (str "") = 0 ∧ (str "").length < 10 ∧ (0 : ℚ) ≠ 0.1) ∧
    (looksLikeScriptOrJson (pyStrip (str "=> => =>")) = true ∧
      feature_score (str "=> => =>") = 0.1 ∧ (0.1 : ℚ) ≠ 0.05) :=
  ⟨⟨rfl, by decide, by norm_num⟩, ⟨by decide, rfl, by norm_num⟩⟩

/-- Claim C5 (amended): `_feature_score` always lies in `[0, 1]`, and the
fixed values hold in the code's branch order on the stripped text: empty
gives `0`, otherwise length below 10 gives `0.1`, otherwise length above
3000 gives `0.2`, otherwise script/JSON-looking text gives `0.05`. -/
theorem feature_score_range_and_fixed_values (text : Str) :
    (0 ≤ feature_score text ∧ feature_score text ≤ 1) ∧
    ((pyStrip text).isEmpty = true → feature_score text = 0) ∧
    ((pyStrip text).isEmpty = false → (pyStrip text).length < 10 →
      feature_score text = 0.1) ∧
    ((pyStrip text).isEmpty = false → ¬(pyStrip text).length < 10 →
      3000 < (pyStrip text).length → feature_score text = 0.2) ∧
    ((pyStrip text).isEmpty = false → ¬(pyStrip text).length < 10 →
      ¬3000 < (pyStrip text).length →
      looksLikeScriptOrJson (pyStrip text) = true →
      feature_score text = 0.05) := by
  simp only [feature_score]
  refine ⟨?_, ?_, ?_, ?_, ?_⟩
  · by_cases h1 : (pyStrip text).isEmpty = true
    · rw [if_pos h1]
      norm_num
    · rw [if_neg h1]
      by_cases h2 : (pyStrip text).length < 10
      · rw [if_pos h2]
        norm_num
      · rw [if_neg h2]
        by_cases h3 : 3000 < (pyStrip text).length
        · rw [if_pos h3]
          norm_num
        · rw [if_neg h3]
          by_cases h4 : looksLikeScriptOrJson (pyStrip text) = true
          · rw [if_pos h4]
            norm_num
          · rw [if_neg h4]
            generalize (List.filter
              (fun tok => containsSub (pyLower (pyStrip text)) tok)
              COMMON_TOKENS).length = hits
            have hm : (0:ℚ) ≤ 0.35 ⊓ ((hits : ℚ) * 8e-2) :=
              le_min (by norm_num) (by positivity)
            constructor
            · refine le_min (by norm_num) ?_
              split_ifs <;> linarith
            · exact min_le_left _ _
  · intro h
    rw [if_pos h]
  · intro h1 h2
    rw [if_neg (by simp [h1]), if_pos h2]
  · intro h1 h2 h3
    rw [if_neg (by simp [h1]), if_neg h2, if_pos h3]
  · intro h1 h2 h3 h4
    rw [if_neg (by simp [h1]), if_neg h2, if_neg h3, if_pos h4]

/-- Witness for C5 (amended): the short-text clause applied at the concrete
nonempty input `"short"` of length 5. -/
theorem feature_score_range_and_fixed_values_witness :
    feature_score (str "short") = 0.1 :=
  (feature_score_range_and_fixed_values (str "short")).2.2.1
    (by decide) (by decide)
